import Mathlib

/-!
Verification of the core of the `mcp-server-template` repository:
the deterministic hashing scheme (`hash` in the task engine and in
`src/utils.ts`), the task-graph engine (`Task.dependencies`, `toposort`,
`dependencyLayers`, `Task.persist`, `Task.result`), the `ObjectStorage`
abstraction (`ensure`, `get`, `set`) and the `memoize` wrapper.

All definitions are shallow embeddings translated from the TypeScript
source.  Recursive traversals are written with an explicit fuel
parameter (structural recursion on `Nat`) so that every definition is
executable and kernel-reducible; theorems either hold for every fuel or
are stated at a fuel value proved sufficient.
-/

namespace McpCore

/-- JSON-representable values as produced by the TypeScript runtime.
Numbers are modelled as integers (the claims under study do not depend
on floating-point behaviour), object entries are kept in insertion
order, exactly as a JS object preserves key insertion order. -/
inductive Json where
  | null : Json
  | bool (b : Bool) : Json
  | num (n : Int) : Json
  | str (s : String) : Json
  | arr (xs : List Json) : Json
  | obj (kvs : List (String × Json)) : Json

/-- Model of `JSON.stringify` (fuel-indexed; fuel larger than the value
depth reproduces the JS behaviour; string escaping is omitted as no
claim depends on it). -/
def stringifyN : Nat → Json → String
  | 0, _ => ""
  | _ + 1, .null => "null"
  | _ + 1, .bool true => "true"
  | _ + 1, .bool false => "false"
  | _ + 1, .num n => toString n
  | _ + 1, .str s => "\"" ++ s ++ "\""
  | n + 1, .arr xs =>
      "[" ++ String.intercalate "," (xs.map (stringifyN n)) ++ "]"
  | n + 1, .obj kvs =>
      "\x7b" ++
        String.intercalate ","
          (kvs.map (fun p => "\"" ++ p.1 ++ "\":" ++ stringifyN n p.2)) ++
        "\x7d"

/-- Lexicographic comparison of character lists by code point; models the
default JS string ordering used by `sort-keys` when sorting object keys.
(Executable replacement for `String ≤`, which does not kernel-reduce.) -/
def charListLe : List Char → List Char → Bool
  | [], _ => true
  | _ :: _, [] => false
  | a :: as, b :: bs =>
      if a.toNat < b.toNat then true
      else if b.toNat < a.toNat then false
      else charListLe as bs

/-- String comparison via the underlying character list. -/
def strLe (s t : String) : Bool := charListLe s.data t.data

/-- The key comparison used when sorting object entries. -/
def keyLE (p q : String × Json) : Prop := strLe p.1 q.1 = true

instance : DecidableRel keyLE := fun p q => by
  unfold keyLE; infer_instance

/-- Model of `sortKeys(value, { deep: true })` from the `sort-keys`
package used by the task-engine `hash`: object keys are sorted
recursively; array element order is preserved. -/
def sortKeysDeepN : Nat → Json → Json
  | 0, v => v
  | _ + 1, .null => .null
  | _ + 1, .bool b => .bool b
  | _ + 1, .num n => .num n
  | _ + 1, .str s => .str s
  | n + 1, .arr xs => .arr (xs.map (sortKeysDeepN n))
  | n + 1, .obj kvs =>
      .obj (List.insertionSort keyLE
        (kvs.map (fun p => (p.1, sortKeysDeepN n p.2))))

/-- Well-formedness of a JS-produced JSON value: within every object the
keys are pairwise distinct (a JS object cannot hold two entries with the
same key).  Fuel-indexed like the other traversals. -/
def wellFormedN : Nat → Json → Bool
  | 0, _ => false
  | _ + 1, .null => true
  | _ + 1, .bool _ => true
  | _ + 1, .num _ => true
  | _ + 1, .str _ => true
  | n + 1, .arr xs => xs.all (wellFormedN n)
  | n + 1, .obj kvs =>
      decide ((kvs.map Prod.fst).Nodup) && kvs.all (fun p => wellFormedN n p.2)

/-- Two JSON values contain the same key-value pairs and differ only in
the insertion order of object keys (recursively); array element order is
preserved.  Fuel-indexed: `JsonEquivN n` relates values of depth below
`n`; `JsonEquivN 0` relates nothing. -/
def JsonEquivN : Nat → Json → Json → Prop
  | 0, _, _ => False
  | n + 1, a, b =>
    match a, b with
    | .null, .null => True
    | .bool x, .bool y => x = y
    | .num x, .num y => x = y
    | .str x, .str y => x = y
    | .arr xs, .arr ys => List.Forall₂ (JsonEquivN n) xs ys
    | .obj kvs, .obj kvs' =>
        ∃ mid, List.Forall₂ (fun p q => p.1 = q.1 ∧ JsonEquivN n p.2 q.2) kvs mid ∧
          mid.Perm kvs'
    | _, _ => False

section HashModels

/-- Options accepted by `hash` (`algorithm`, `encoding`), as declared in
`HashOptions` in both `src/utils.ts` and the task engine. -/
structure HashOptions where
  algorithm : Option String := none
  encoding : Option String := none

/-- Digest algorithms accepted by `createHash` in the model (a finite
stand-in for the set node's crypto module supports; text-to-binary
encodings such as `base64` or `hex` are not in it, exactly as in node). -/
def validAlgorithms : List String := ["sha256", "sha512", "sha1", "md5"]

/-- Abstract model of `createHash(alg).update(message).digest(enc)`: the
digest is treated as an injective function of the algorithm, the message
bytes and the output encoding (the spec treats collisions of the real
SHA-2 functions as impossible-in-practice). -/
def digestModel (algorithm encoding message : String) : String :=
  "digest:" ++ algorithm ++ ":" ++ encoding ++ ":" ++ message

/-- The three shapes of value the task-engine `hash` accepts: a `Task`
(hashed via its `key`), a binary payload, or a JSON-representable value. -/
inductive Hashable where
  | task (key : String)
  | binary (bytes : String)
  | json (v : Json)

/-- Is the JS value a non-null `typeof value === "object"` value? -/
def isObjLike : Json → Bool
  | .arr _ => true
  | .obj _ => true
  | _ => false

/-- The string fed to `hash.update` for one value by the task-engine
`hash` (part_004): a task contributes its key, a binary payload its raw
bytes, an object/array its JSON serialization after deep key sorting,
and any other value its JSON serialization.  (The `catch` branch that
falls back to unsorted JSON cannot fire in this model: finite trees
always stringify.) -/
def engineUpdateN (n : Nat) : Hashable → String
  | .task k => k
  | .binary b => b
  | .json v => if isObjLike v then stringifyN n (sortKeysDeepN n v) else stringifyN n v

/-- Model of the task-engine `hash(values, options)`.  Faithful to the
source, including the slip that `options?.encoding ?? "sha256"` — not
`options?.algorithm` — is passed to `createHash`; `createHash` throws on
an unsupported digest name. -/
def engineHashN (n : Nat) (values : List Hashable) (options : Option HashOptions) :
    Except String String :=
  let alg := (options.bind (·.encoding)).getD "sha256"
  if alg ∈ validAlgorithms then
    .ok (digestModel alg ((options.bind (·.encoding)).getD "hex")
      (String.join (values.map (engineUpdateN n))))
  else
    .error ("Digest method not supported: " ++ alg)

/-- The string fed to `hash.update` for one value by the utility `hash`
in `src/utils.ts`: strings and binary payloads are fed raw, everything
else is `JSON.stringify`-ed with NO key sorting.  (The `Hashable` type of
`src/utils.ts` has no task case; the constructor is shared with the
engine model only so both hashes range over one value type, and the
claims below never use it here.) -/
def utilityUpdateN (n : Nat) : Hashable → String
  | .task k => k
  | .binary b => b
  | .json (.str s) => s
  | .json v => stringifyN n v

/-- Model of the utility `hash(values, options)` in `src/utils.ts`
(the function `memoize` uses for its default cache key).  It shares the
`createHash(options?.encoding ?? "sha256")` slip with the engine hash. -/
def utilityHashN (n : Nat) (values : List Hashable) (options : Option HashOptions) :
    Except String String :=
  let alg := (options.bind (·.encoding)).getD "sha256"
  if alg ∈ validAlgorithms then
    .ok (digestModel alg ((options.bind (·.encoding)).getD "hex")
      (String.join (values.map (utilityUpdateN n))))
  else
    .error ("Digest method not supported: " ++ alg)

/-- Decidable equality of hash results. -/
instance {e a : Type} [DecidableEq e] [DecidableEq a] : DecidableEq (Except e a) :=
  fun x y =>
    match x, y with
    | .ok u, .ok v =>
      if h : u = v then isTrue (by rw [h]) else isFalse (by intro hh; cases hh; exact h rfl)
    | .error u, .error v =>
      if h : u = v then isTrue (by rw [h]) else isFalse (by intro hh; cases hh; exact h rfl)
    | .ok _, .error _ => isFalse (by intro hh; cases hh)
    | .error _, .ok _ => isFalse (by intro hh; cases hh)

end HashModels

section TaskGraph

/-- A task graph keyed by task `key`: for each key, the ordered list of
keys of the `Task` instances among that task's arguments
(`this.args.filter(isTask)`, before deduplication).  Task objects with
equal keys are the same node, per the spec's key-identity invariant. -/
abbrev Graph := List (String × List String)

/-- Model of `removeDuplicateTasks`: keep the first occurrence of each
key. -/
def removeDupAux (seen : List String) : List String → List String
  | [] => []
  | k :: ks => if k ∈ seen then removeDupAux seen ks
               else k :: removeDupAux (k :: seen) ks

/-- Model of `removeDuplicateTasks(tasks)` over keys. -/
def removeDuplicateTasks (l : List String) : List String := removeDupAux [] l

/-- The raw argument-task keys of a task (in argument order). -/
def rawArgs (g : Graph) (k : String) : List String :=
  (List.lookup k g).getD []

/-- Model of `task.dependencies()` (no `deep`): the de-duplicated list of
the task keys among the arguments. -/
def nodeDeps (g : Graph) (k : String) : List String :=
  removeDuplicateTasks (rawArgs g k)

/-- The `while (work.length)` loop inside `Task.dependencies({deep:true})`,
faithful to the source: pop a task, skip it if its key was seen, else
record it and push its argument tasks.  (Because the caller seeds `seen`
with every element of `work`, the skip branch always fires.) -/
def depsDeepLoop (g : Graph) : Nat → List String → List String → List String → List String
  | 0, _, _, deps => deps
  | _ + 1, _, [], deps => deps
  | fuel + 1, seen, k :: work, deps =>
      if k ∈ seen then depsDeepLoop g fuel seen work deps
      else depsDeepLoop g fuel (k :: seen) (work ++ rawArgs g k) (deps ++ [k])

/-- Model of `task.dependencies({ deep: true })`: start from the direct
dependencies, seed `seen` with exactly their keys, and run the work
loop.  (The stack in the source pops from the end; since every seeded
element is skipped, pop order does not matter.) -/
def dependenciesDeep (g : Graph) (k : String) : List String :=
  let deps := nodeDeps g k
  depsDeepLoop g (deps.length + 1) deps deps deps

/-- The possible outcomes of the `toposort` run: a sorted list, the
`Cycle detected: a -> b` exception, or fuel exhaustion (which the
sufficiency theorem rules out for the fuel bound used below). -/
inductive TopoOut where
  | ok (sorted : List String)
  | cycle (a b : String)
  | fuelOut
deriving DecidableEq

/-- The state of the explicit-stack `toposort` loop: the outer `for`
iteration's remaining (de-duplicated) tasks, the `tasksToProcess` stack
(head = top), and the `visiting` / `completed` sets alongside the
`sortedTasks` accumulator. -/
structure TopoSt where
  roots : List String
  stack : List String
  visiting : List String
  completed : List String
  sorted : List String

/-- One fuel-indexed run of the `toposort` loops, faithful to the
source: process the stack top; skip it if completed; mark it visiting;
raise `Cycle detected` at the first incomplete dependency already being
visited; complete it when all dependencies are complete; otherwise push
the incomplete dependencies.  When the stack empties, move to the next
outer task. -/
def topoStep (g : Graph) : Nat → TopoSt → TopoOut
  | 0, _ => .fuelOut
  | fuel + 1, st =>
    match st.stack with
    | [] =>
      match st.roots with
      | [] => .ok st.sorted
      | r :: rs =>
          if r ∈ st.completed then
            topoStep g fuel { st with roots := rs }
          else
            topoStep g fuel { st with roots := rs, stack := [r] }
    | c :: rest =>
        if c ∈ st.completed then
          topoStep g fuel { st with stack := rest }
        else
          let visiting' := if c ∈ st.visiting then st.visiting else c :: st.visiting
          let ds := nodeDeps g c
          match ds.find? (fun d => !(decide (d ∈ st.completed)) && decide (d ∈ visiting')) with
          | some d => .cycle c d
          | none =>
              let incomplete := ds.filter (fun d => !(decide (d ∈ st.completed)))
              if incomplete.isEmpty then
                topoStep g fuel
                  ⟨st.roots, rest, visiting'.erase c, c :: st.completed, st.sorted ++ [c]⟩
              else
                topoStep g fuel
                  ⟨st.roots, incomplete.reverse ++ c :: rest, visiting', st.completed, st.sorted⟩

/-- Every key that can occur anywhere during a run: the inputs together
with every source and target key of the graph. -/
def keyUniverse (g : Graph) (inputs : List String) : List String :=
  removeDuplicateTasks (inputs ++ g.map Prod.fst ++ g.flatMap Prod.snd)

/-- The weight a not-yet-scheduled key contributes to the termination
measure. -/
def keyWeight (g : Graph) (k : String) : Nat := 2 + (nodeDeps g k).length

/-- Sum of key weights, used by the termination measure. -/
def sumW (g : Graph) (l : List String) : Nat :=
  l.foldr (fun k acc => keyWeight g k + acc) 0

/-- Termination measure for the `toposort` loop. -/
def topoMeasure (g : Graph) (inputs : List String) (st : TopoSt) : Nat :=
  2 * st.roots.length + st.stack.length +
    sumW g ((keyUniverse g inputs).filter
      (fun k => decide (k ∉ st.completed) && decide (k ∉ st.visiting)))

/-- The initial state of a `toposort(tasks)` call. -/
def topoInit (inputs : List String) : TopoSt :=
  ⟨removeDuplicateTasks inputs, [], [], [], []⟩

/-- Fuel provably sufficient for the whole run. -/
def topoFuel (g : Graph) (inputs : List String) : Nat :=
  topoMeasure g inputs (topoInit inputs) + 1

/-- Model of `toposort(tasks)`. -/
def toposortRun (g : Graph) (inputs : List String) : TopoOut :=
  topoStep g (topoFuel g inputs) (topoInit inputs)

/-- The layer computed for one task by `dependencyLayers`:
`Math.max(-1, ...task.dependencies().map((dep) => layersByKey.get(dep.key) ?? 0)) + 1`. -/
def layerOfTask (g : Graph) (m : List (String × Nat)) (k : String) : Nat :=
  (((nodeDeps g k).map (fun d => ((List.lookup d m).getD 0 : Int))).foldl
    max (-1) + 1).toNat

/-- The `layersByKey` map after folding over the sorted task list. -/
def layersByKey (g : Graph) : List String → List (String × Nat) → List (String × Nat)
  | [], m => m
  | k :: ks, m => layersByKey g ks (m ++ [(k, layerOfTask g m k)])

/-- Group the sorted tasks by their layer index. -/
def groupLayers (m : List (String × Nat)) (sorted : List String) (i : Nat) : List String :=
  sorted.filter (fun k => (List.lookup k m).getD 0 = i)

/-- The layer index `layersByKey` assigns to a key (0 when absent, as
`layersByKey.get(...) ?? 0`). -/
def getL (m : List (String × Nat)) (k : String) : Nat :=
  (List.lookup k m).getD 0

/-- Outcome of `dependencyLayers(task)`. -/
inductive LayersOut where
  | ok (sorted : List String) (m : List (String × Nat))
  | cycle (a b : String)
  | fuelOut
deriving DecidableEq

/-- Model of `dependencyLayers(task)`: the input list is
`[task, ...task.dependencies({deep: true})]` (which, in the source as
written, contains only the direct dependencies), then `toposort`, then
the layer fold.  We keep the sorted list and the layer map; the grouped
`layers` array is `groupLayers` of the map. -/
def dependencyLayersRun (g : Graph) (root : String) : LayersOut :=
  match toposortRun g (root :: dependenciesDeep g root) with
  | .ok sorted => .ok sorted (layersByKey g sorted [])
  | .cycle a b => .cycle a b
  | .fuelOut => .fuelOut

/-- Relation holding when `b` is among the direct dependencies of `a`. -/
def Edge (g : Graph) (a b : String) : Prop := b ∈ nodeDeps g a

instance (g : Graph) (a b : String) : Decidable (Edge g a b) := by
  unfold Edge; infer_instance

/-- Reachability: `Reaches g a b` holds when `b` is `a` itself or a (transitive) dependency of
`a` — reachability through the arguments relation. -/
inductive Reaches (g : Graph) : String → String → Prop
  | refl (a : String) : Reaches g a a
  | tail {a b c : String} : Reaches g a b → Edge g b c → Reaches g a c

/-- The dependency relation is acyclic: no key has itself as a
(transitive) dependency through at least one edge. -/
def Acyclic (g : Graph) : Prop :=
  ∀ a b, Edge g a b → ¬ Reaches g b a

/-- Sorted-output well-formedness, built the way `toposort` builds it:
each appended task has all its dependencies already in the list. -/
inductive GoodOrder (g : Graph) : List String → Prop
  | nil : GoodOrder g []
  | snoc {l : List String} {c : String} : GoodOrder g l →
      (∀ d ∈ nodeDeps g c, d ∈ l) → GoodOrder g (l ++ [c])

/-- The loop invariant of the `toposort` state machine. -/
structure TopoInv (g : Graph) (inputs : List String) (st : TopoSt) : Prop where
  sorted_nodup : st.sorted.Nodup
  completed_iff : ∀ k, k ∈ st.completed ↔ k ∈ st.sorted
  good : GoodOrder g st.sorted
  reach_stack : ∀ k ∈ st.stack, ∃ i ∈ inputs, Reaches g i k
  reach_sorted : ∀ k ∈ st.sorted, ∃ i ∈ inputs, Reaches g i k
  roots_inputs : ∀ r ∈ st.roots, r ∈ inputs
  cover : ∀ i ∈ inputs, i ∈ st.completed ∨ i ∈ st.roots ∨ i ∈ st.stack
  vis_nodup : st.visiting.Nodup
  vis_not_completed : ∀ x ∈ st.visiting, x ∉ st.completed
  vis_decomp : ∀ x ∈ st.visiting, ∃ pre post, st.stack = pre ++ x :: post ∧ x ∉ pre ∧
      (∀ d ∈ nodeDeps g x, d ∈ st.completed ∨ d ∈ pre) ∧ (∀ y ∈ pre, Reaches g x y)
  stack_univ : ∀ k ∈ st.stack, k ∈ keyUniverse g inputs

/-- What the returned list of a successful `toposort` run satisfies. -/
def GoodFinal (g : Graph) (inputs : List String) (out : List String) : Prop :=
  out.Nodup ∧ GoodOrder g out ∧ (∀ k, k ∈ out ↔ ∃ i ∈ inputs, Reaches g i k)

end TaskGraph


section TaskExecution

variable {V : Type}

/-- One argument of a task: a literal value or another task (by key). -/
inductive TaskArg (V : Type) where
  | lit (v : V)
  | task (key : String)

/-- A task node: its key, its ordered argument list, and its `fn`
(modelled as a pure function from the resolved argument values; the
claims under study concern only when `fn` is invoked). -/
structure TaskNode (V : Type) where
  key : String
  args : List (TaskArg V)
  fn : List V → V

/-- A whole task graph, as the set of live `Task` objects keyed by
`key`. -/
abbrev Config (V : Type) := List (TaskNode V)

/-- The string graph underlying a configuration: for each task, the keys
of the `Task` instances among its arguments (`args.filter(isTask)`). -/
def graphOf (γ : Config V) : Graph :=
  γ.map (fun nd => (nd.key, nd.args.filterMap
    (fun a => match a with | .task k => some k | .lit _ => none)))

/-- Look up the task object with the given key. -/
def lookupNode (γ : Config V) (k : String) : Option (TaskNode V) :=
  γ.find? (fun nd => nd.key == k)

/-- The shared task storage (the spec's default in-memory map, shared by
the whole graph through `setDefaultStorage`). -/
abbrev Store (V : Type) := List (String × V)

/-- Observable side effects of a run: `fn` invocations and storage
writes. -/
inductive Event where
  | fnCall (k : String)
  | write (k : String)
deriving DecidableEq

/-- Errors a run can end in. -/
inductive ExecErr where
  | cycle (a b : String)
  | keyNotFound (k : String)
  | missingNode (k : String)
  | noFuel
deriving DecidableEq

/-- The sequential execution order of the dependency layers: layer 0
first, then layer 1, and so on (the in-layer `Promise.all` is modelled
by executing the layer's tasks in order; the claims proved below concern
only behaviour before any execution starts or runs that perform no
writes at all, which is insensitive to in-layer interleaving). -/
def layerOrder (m : List (String × Nat)) (sorted : List String) : List String :=
  (List.range (sorted.length + 1)).flatMap (groupLayers m sorted)

mutual

/-- Model of `Task.persist`: return immediately on a storage hit;
otherwise resolve the arguments (each `Task` argument via its own
`result`), invoke `fn`, and write the result. -/
def persistRun (γ : Config V) : Nat → Store V → String →
    List Event × Except ExecErr (Store V)
  | 0, _, _ => ([], .error .noFuel)
  | fuel + 1, st, k =>
    match List.lookup k st with
    | some _ => ([], .ok st)
    | none =>
      match lookupNode γ k with
      | none => ([], .error (.missingNode k))
      | some nd =>
        match unwrapArgs γ fuel st nd.args with
        | (evs, .error e) => (evs, .error e)
        | (evs, .ok (vals, st')) =>
            (evs ++ [.fnCall k, .write k], .ok ((k, nd.fn vals) :: st'))

/-- Model of `unwrap`: resolve each argument, calling `result` on task
arguments. -/
def unwrapArgs (γ : Config V) : Nat → Store V → List (TaskArg V) →
    List Event × Except ExecErr (List V × Store V)
  | 0, _, _ => ([], .error .noFuel)
  | _ + 1, st, [] => ([], .ok ([], st))
  | fuel + 1, st, .lit v :: rest =>
    match unwrapArgs γ fuel st rest with
    | (evs, .error e) => (evs, .error e)
    | (evs, .ok (vals, st')) => (evs, .ok (v :: vals, st'))
  | fuel + 1, st, .task k :: rest =>
    match resultRun γ fuel st k with
    | (evs, .error e) => (evs, .error e)
    | (evs, .ok (v, st')) =>
      match unwrapArgs γ fuel st' rest with
      | (evs₂, .error e) => (evs ++ evs₂, .error e)
      | (evs₂, .ok (vals, st'')) => (evs ++ evs₂, .ok (v :: vals, st''))

/-- Call `persist` on each task of the layered schedule in order. -/
def runTasks (γ : Config V) : Nat → Store V → List String →
    List Event × Except ExecErr (Store V)
  | 0, _, _ => ([], .error .noFuel)
  | _ + 1, st, [] => ([], .ok st)
  | fuel + 1, st, k :: ks =>
    match persistRun γ fuel st k with
    | (evs, .error e) => (evs, .error e)
    | (evs, .ok st') =>
      match runTasks γ fuel st' ks with
      | (evs₂, r) => (evs ++ evs₂, r)

/-- Model of `Task.result`: return the stored value on a storage hit;
otherwise compute the dependency layers (which performs the cycle
check), execute them, and read the result back from storage. -/
def resultRun (γ : Config V) : Nat → Store V → String →
    List Event × Except ExecErr (V × Store V)
  | 0, _, _ => ([], .error .noFuel)
  | fuel + 1, st, k =>
    match List.lookup k st with
    | some v => ([], .ok (v, st))
    | none =>
      match dependencyLayersRun (graphOf γ) k with
      | .cycle a b => ([], .error (.cycle a b))
      | .fuelOut => ([], .error .noFuel)
      | .ok sorted m =>
        match runTasks γ fuel st (layerOrder m sorted) with
        | (evs, .error e) => (evs, .error e)
        | (evs, .ok st') =>
          match List.lookup k st' with
          | some v => (evs, .ok (v, st'))
          | none => (evs, .error (.keyNotFound k))

end

end TaskExecution

section ObjectStorageModel

variable {A W : Type}

/-- A constraint: a predicate over attributes plus its failure message. -/
structure OsConstraint (A : Type) where
  check : A → Bool
  message : String

/-- Encode/decode transforms; a JS function can evaluate to a nullish
value, modelled by `Option`. -/
structure OsTransforms (W : Type) where
  decode : W → Option W
  encode : W → Option W

/-- An `ObjectStorage` configuration: optional constraints and optional
transforms (both `undefined` by default). -/
structure OsConfig (A W : Type) where
  constraints : Option (List (OsConstraint A)) := none
  transforms : Option (OsTransforms W) := none

/-- The provider's state: for each key, the stored payload and its
attributes. -/
abbrev OsStore (A W : Type) := List (String × W × A)

/-- Model of `checkConstraints` / `ObjectStorage.validate`: with no
constraints configured everything is valid; otherwise collect the
message of every failing constraint. -/
def osValidate (cfg : OsConfig A W) (a : A) : List String :=
  match cfg.constraints with
  | none => []
  | some cs => (cs.filter (fun c => !(c.check a))).map (fun c => c.message)

/-- Model of `provider.getAttributes` (`none` models the thrown
not-found error). -/
def osGetAttributes (st : OsStore A W) (k : String) : Option A :=
  (List.lookup k st).map Prod.snd

/-- Errors surfaced by `ObjectStorage.get`. -/
inductive OsErr where
  | notFound (k : String)
  | validation (messages : List String)
deriving DecidableEq

/-- The bytes `ObjectStorage.set` hands to the provider:
`(await this.transforms?.encode(data)) ?? (data as Buffer)`. -/
def osEncode (cfg : OsConfig A W) (v : W) : W :=
  match cfg.transforms with
  | none => v
  | some t => (t.encode v).getD v

/-- Model of `ObjectStorage.set`: encode and write through the provider
(`na` is the attribute value the provider assigns to the new entry). -/
def osSet (cfg : OsConfig A W) (st : OsStore A W) (k : String) (v : W) (na : A) :
    OsStore A W :=
  (k, osEncode cfg v, na) :: st

/-- Model of `ObjectStorage.get`: read attributes (fails `notFound` when
the key is absent), validate them against the constraints (fails with
every failed constraint's message), then read the payload and decode it:
`(await this.transforms?.decode(buffer)) ?? (buffer as Data)`. -/
def osGet (cfg : OsConfig A W) (st : OsStore A W) (k : String) : Except OsErr W :=
  match List.lookup k st with
  | none => .error (.notFound k)
  | some (buf, attrs) =>
    if (osValidate cfg attrs).isEmpty then
      .ok (match cfg.transforms with
           | none => buf
           | some t => (t.decode buf).getD buf)
    else .error (.validation (osValidate cfg attrs))

/-- Result of `ObjectStorage.ensure`: whether the compute callback ran,
and the resulting provider state. -/
structure EnsureOut (A W : Type) where
  computeRan : Bool
  state : OsStore A W
deriving DecidableEq

/-- Model of `ObjectStorage.ensure(key, fn)`: try
`getAttributes` + `validate`; on any failure (missing key or failed
constraint) run the compute callback (its value is `v`) and `set` the
result; on success leave storage untouched. -/
def ensureRun (cfg : OsConfig A W) (st : OsStore A W) (k : String) (v : W) (na : A) :
    EnsureOut A W :=
  match osGetAttributes st k with
  | none => ⟨true, osSet cfg st k v na⟩
  | some attrs =>
    if (osValidate cfg attrs).isEmpty then ⟨false, st⟩
    else ⟨true, osSet cfg st k v na⟩

end ObjectStorageModel

section MemoizeModel

variable {V E : Type}

/-- The `memoize` options: an optional bypass condition, an optional
custom key function, and the `get`/`set` pair.  The storage behaviours
are modelled as functions returning `Except` (an error models a throw:
not-found or any read/write failure).  `hashFuel` is the fuel passed to
the fuel-indexed default-key hash. -/
structure MemoEnv (V E : Type) where
  condition : Option (List Json → Bool) := none
  keyFn : Option (List Json → String) := none
  getR : String → Except E V
  setR : String → V → Except E Unit
  hashFuel : Nat := 0

/-- The derived cache key: the user's key function, or by default the
utility `hash` applied to the call's arguments. -/
def memoKey (env : MemoEnv V E) (args : List Json) : String :=
  match env.keyFn with
  | some f => f args
  | none => ((utilityHashN env.hashFuel (args.map Hashable.json) none).toOption).getD ""

/-- Result of one memoized call: the returned value and the observable
behaviour of the call. -/
structure MemoOut (V : Type) where
  value : V
  fnCalled : Bool
  cacheWriteAttempted : Bool
  cacheWriteFailed : Bool

/-- The cache path of a memoized call: derive the key and try `get`; on
success return the cached value; on failure compute `fn(...)`, attempt
`set` (logging but swallowing a write error), and return the freshly
computed value. -/
def memoLookup (env : MemoEnv V E) (fnR : List Json → V) (args : List Json) :
    MemoOut V :=
  let k := memoKey env args
  match env.getR k with
  | .ok v => ⟨v, false, false, false⟩
  | .error _ =>
    let r := fnR args
    match env.setR k r with
    | .ok _ => ⟨r, true, true, false⟩
    | .error _ => ⟨r, true, true, true⟩

/-- Model of one call of the function produced by `memoize(fn, options)`:
if `condition` returns false, call `fn` directly (no cache read or
write); otherwise run the cache path `memoLookup`. -/
def memoRun (env : MemoEnv V E) (fnR : List Json → V) (args : List Json) :
    MemoOut V :=
  match env.condition with
  | some c =>
    if c args then memoLookup env fnR args
    else ⟨fnR args, true, false, false⟩
  | none => memoLookup env fnR args

end MemoizeModel

/-- A two-task configuration whose dependency relation is the cycle
`A -> B -> A` (each task lists the other among its arguments). -/
def cycConfig : Config Nat :=
  [⟨"A", [.task "B"], fun _ => 0⟩, ⟨"B", [.task "A"], fun _ => 0⟩]

theorem charListLe_total : ∀ as bs, charListLe as bs = true ∨ charListLe bs as = true
  | [], _ => Or.inl rfl
  | _ :: _, [] => Or.inr rfl
  | a :: as, b :: bs => by
      by_cases hab : a.toNat < b.toNat
      · exact Or.inl (by simp [charListLe, hab])
      · by_cases hba : b.toNat < a.toNat
        · exact Or.inr (by simp [charListLe, hab, hba])
        · rcases charListLe_total as bs with h | h
          · exact Or.inl (by simp [charListLe, hab, hba, h])
          · exact Or.inr (by simp [charListLe, hab, hba, h])

theorem charListLe_antisymm : ∀ as bs, charListLe as bs = true →
    charListLe bs as = true → as = bs
  | [], [], _, _ => rfl
  | [], _ :: _, _, h => by simp [charListLe] at h
  | _ :: _, [], h, _ => by simp [charListLe] at h
  | a :: as, b :: bs, h₁, h₂ => by
      by_cases hab : a.toNat < b.toNat
      · simp [charListLe, Nat.lt_asymm hab, hab] at h₂
      · by_cases hba : b.toNat < a.toNat
        · simp [charListLe, hab, hba] at h₁
        · have hkey : a = b := Char.eq_of_val_eq (by
            have h := Nat.le_antisymm (Nat.le_of_not_lt hba) (Nat.le_of_not_lt hab)
            exact UInt32.toNat.inj h)
          subst hkey
          simp only [charListLe, if_neg hab, if_neg hab] at h₁ h₂
          rw [charListLe_antisymm as bs h₁ h₂]

theorem charListLe_trans : ∀ as bs cs, charListLe as bs = true →
    charListLe bs cs = true → charListLe as cs = true
  | [], _, _, _, _ => rfl
  | _ :: _, [], _, h, _ => by simp [charListLe] at h
  | _ :: _, _ :: _, [], _, h => by simp [charListLe] at h
  | a :: as, b :: bs, c :: cs, h₁, h₂ => by
      by_cases hab : a.toNat < b.toNat <;> by_cases hbc : b.toNat < c.toNat
      · simp [charListLe, Nat.lt_trans hab hbc]
      · have hcb : c.toNat ≤ b.toNat := Nat.le_of_not_lt hbc
        simp only [charListLe, if_neg hbc] at h₂
        by_cases hcb' : c.toNat < b.toNat
        · simp [hcb'] at h₂
        · have : b.toNat = c.toNat := Nat.le_antisymm (Nat.le_of_not_lt hcb') hcb
          simp [charListLe, this ▸ hab]
      · have hba : b.toNat ≤ a.toNat := Nat.le_of_not_lt hab
        simp only [charListLe, if_neg hab] at h₁
        by_cases hba' : b.toNat < a.toNat
        · simp [hba'] at h₁
        · have : a.toNat = b.toNat := Nat.le_antisymm (Nat.le_of_not_lt hba') hba
          simp [charListLe, this ▸ hbc]
      · simp only [charListLe, if_neg hab] at h₁
        by_cases hba' : b.toNat < a.toNat
        · simp [hba'] at h₁
        · simp only [charListLe, if_neg hbc] at h₂
          by_cases hcb' : c.toNat < b.toNat
          · simp [hcb'] at h₂
          · rw [if_neg hba'] at h₁
            rw [if_neg hcb'] at h₂
            have hac : ¬ a.toNat < c.toNat := by omega
            have hca : ¬ c.toNat < a.toNat := by omega
            simp [charListLe, hac, hca, charListLe_trans as bs cs h₁ h₂]

theorem strLe_total (s t : String) : strLe s t = true ∨ strLe t s = true :=
  charListLe_total s.data t.data

theorem strLe_antisymm {s t : String} (h₁ : strLe s t = true)
    (h₂ : strLe t s = true) : s = t := by
  cases s; cases t
  exact congrArg String.mk (charListLe_antisymm _ _ h₁ h₂)

theorem strLe_trans {s t u : String} (h₁ : strLe s t = true)
    (h₂ : strLe t u = true) : strLe s u = true :=
  charListLe_trans _ _ _ h₁ h₂


/-- If two association lists with pairwise-distinct keys are permutations
of each other, insertion sort by key maps them to the same list. -/
theorem insertionSort_eq_of_perm (l₁ l₂ : List (String × Json))
    (hperm : l₁.Perm l₂) (hnd : (l₁.map Prod.fst).Nodup) :
    List.insertionSort keyLE l₁ = List.insertionSort keyLE l₂ := by
  haveI : IsTotal (String × Json) keyLE := ⟨fun p q => strLe_total p.1 q.1⟩
  haveI : IsTrans (String × Json) keyLE := ⟨fun _ _ _ => strLe_trans⟩
  have hnd₂ : (l₂.map Prod.fst).Nodup := ((hperm.map Prod.fst).nodup_iff).mp hnd
  have hps₁ : (List.insertionSort keyLE l₁).Perm l₁ := List.perm_insertionSort keyLE l₁
  have hps₂ : (List.insertionSort keyLE l₂).Perm l₂ := List.perm_insertionSort keyLE l₂
  have hsorted₁ : List.Sorted keyLE (List.insertionSort keyLE l₁) :=
    List.sorted_insertionSort keyLE l₁
  have hsorted₂ : List.Sorted keyLE (List.insertionSort keyLE l₂) :=
    List.sorted_insertionSort keyLE l₂
  have hndk₁ : ((List.insertionSort keyLE l₁).map Prod.fst).Nodup :=
    ((hps₁.map Prod.fst).nodup_iff).mpr hnd
  have hndk₂ : ((List.insertionSort keyLE l₂).map Prod.fst).Nodup :=
    ((hps₂.map Prod.fst).nodup_iff).mpr hnd₂
  -- strengthen the weak sortedness to strict sortedness on keys
  have hne₁ : (List.insertionSort keyLE l₁).Pairwise (fun p q => p.1 ≠ q.1) := by
    have := (List.pairwise_map (f := Prod.fst)).mp hndk₁
    exact this.imp (fun h => h)
  have hne₂ : (List.insertionSort keyLE l₂).Pairwise (fun p q => p.1 ≠ q.1) := by
    have := (List.pairwise_map (f := Prod.fst)).mp hndk₂
    exact this.imp (fun h => h)
  have hst₁ : (List.insertionSort keyLE l₁).Pairwise
      (fun p q : String × Json => keyLE p q ∧ p.1 ≠ q.1) := hsorted₁.and hne₁
  have hst₂ : (List.insertionSort keyLE l₂).Pairwise
      (fun p q : String × Json => keyLE p q ∧ p.1 ≠ q.1) := hsorted₂.and hne₂
  haveI : IsAntisymm (String × Json) (fun p q => keyLE p q ∧ p.1 ≠ q.1) := by
    constructor
    intro p q h₁ h₂
    exact absurd (strLe_antisymm h₁.1 h₂.1) h₁.2
  exact List.eq_of_perm_of_sorted
    (hps₁.trans (hperm.trans hps₂.symm)) hst₁ hst₂

/-- Core lemma for hash determinism: on well-formed values, recursive key
sorting maps key-order-equivalent values to syntactically equal values. -/
theorem sortKeysDeepN_eq_of_equiv : ∀ (n : Nat) (a b : Json),
    wellFormedN n a = true → JsonEquivN n a b →
    sortKeysDeepN n a = sortKeysDeepN n b := by
  intro n
  induction n with
  | zero => intro a b _ h; exact absurd h (by simp [JsonEquivN])
  | succ n ih =>
    intro a b hwf heq
    cases a <;> cases b <;> simp only [JsonEquivN] at heq <;> try exact heq.elim
    case null.null => rfl
    case bool.bool x y => rw [show x = y from heq]
    case num.num x y => rw [show x = y from heq]
    case str.str x y => rw [show x = y from heq]
    case arr.arr xs ys =>
      simp only [sortKeysDeepN, Json.arr.injEq]
      simp only [wellFormedN, List.all_eq_true] at hwf
      induction heq with
      | nil => rfl
      | cons h₁ h₂ ih₂ =>
        simp only [List.map_cons, List.cons.injEq]
        refine ⟨ih _ _ (hwf _ (by simp)) h₁, ?_⟩
        exact ih₂ (fun x hx => hwf x (by simp [hx]))
    case obj.obj kvs kvs' =>
      obtain ⟨mid, hfa, hperm⟩ := heq
      simp only [wellFormedN, Bool.and_eq_true, decide_eq_true_eq,
        List.all_eq_true] at hwf
      obtain ⟨hnd, hvals⟩ := hwf
      simp only [sortKeysDeepN, Json.obj.injEq]
      have hmapeq : kvs.map (fun p => (p.1, sortKeysDeepN n p.2)) =
          mid.map (fun p => (p.1, sortKeysDeepN n p.2)) := by
        clear hperm
        induction hfa with
        | nil => rfl
        | cons h₁ h₂ ih₂ =>
          simp only [List.map_cons, List.cons.injEq]
          constructor
          · exact Prod.ext h₁.1 (ih _ _ (hvals _ (by simp)) h₁.2)
          · exact ih₂ ((List.nodup_cons.mp (by simpa using hnd)).2)
              (fun p hp => hvals p (by simp [hp]))
      have hpermmap : (mid.map (fun p => (p.1, sortKeysDeepN n p.2))).Perm
          (kvs'.map (fun p => (p.1, sortKeysDeepN n p.2))) := hperm.map _
      have hndmap : ((kvs.map (fun p => (p.1, sortKeysDeepN n p.2))).map Prod.fst).Nodup := by
        have : (kvs.map (fun p => (p.1, sortKeysDeepN n p.2))).map Prod.fst =
            kvs.map Prod.fst := by
          simp [List.map_map, Function.comp]
        rw [this]; exact hnd
      rw [hmapeq]
      rw [hmapeq] at hndmap
      exact insertionSort_eq_of_perm _ _ hpermmap hndmap

/-- On well-formed values, the task-engine update string is invariant
under key-order equivalence. -/
theorem engineUpdateN_eq_of_equiv (n : Nat) (a b : Json)
    (hwf : wellFormedN n a = true) (heq : JsonEquivN n a b) :
    engineUpdateN n (.json a) = engineUpdateN n (.json b) := by
  cases n with
  | zero => exact absurd heq (by simp [JsonEquivN])
  | succ n =>
    have hsort := sortKeysDeepN_eq_of_equiv (n + 1) a b hwf heq
    cases a <;> cases b <;> simp only [JsonEquivN] at heq <;> try exact heq.elim
    case null.null => rfl
    case bool.bool x y => rw [show x = y from heq]
    case num.num x y => rw [show x = y from heq]
    case str.str x y => rw [show x = y from heq]
    case arr.arr xs ys =>
      simp [engineUpdateN, isObjLike, hsort]
    case obj.obj kvs kvs' =>
      simp [engineUpdateN, isObjLike, hsort]

section TaskGraphLemmas

theorem mem_removeDupAux {k : String} : ∀ {seen l : List String},
    k ∈ removeDupAux seen l ↔ k ∈ l ∧ k ∉ seen := by
  intro seen l
  induction l generalizing seen with
  | nil => simp [removeDupAux]
  | cons a t ih =>
    by_cases ha : a ∈ seen <;>
      simp only [removeDupAux, if_pos, if_neg, ha, ih, List.mem_cons, not_or,
        not_false_eq_true, if_true, if_false] <;>
      constructor
    · rintro ⟨h₁, h₂⟩; exact ⟨Or.inr h₁, h₂⟩
    · rintro ⟨h₁ | h₁, h₂⟩
      · exact absurd ha (h₁ ▸ h₂)
      · exact ⟨h₁, h₂⟩
    · rintro (rfl | ⟨h₁, h₂, h₃⟩)
      · exact ⟨Or.inl rfl, ha⟩
      · exact ⟨Or.inr h₁, h₃⟩
    · rintro ⟨rfl | h₁, h₂⟩
      · exact Or.inl rfl
      · by_cases hka : k = a
        · exact Or.inl hka
        · exact Or.inr ⟨h₁, hka, h₂⟩

theorem nodup_removeDupAux : ∀ (seen l : List String), (removeDupAux seen l).Nodup := by
  intro seen l
  induction l generalizing seen with
  | nil => simp [removeDupAux]
  | cons a t ih =>
    by_cases ha : a ∈ seen
    · simpa [removeDupAux, if_pos ha] using ih seen
    · simp only [removeDupAux, if_neg ha, List.nodup_cons]
      exact ⟨fun hmem => (mem_removeDupAux.mp hmem).2 (List.mem_cons_self a _),
        ih (a :: seen)⟩

theorem mem_removeDuplicateTasks {k : String} {l : List String} :
    k ∈ removeDuplicateTasks l ↔ k ∈ l := by
  simp [removeDuplicateTasks, mem_removeDupAux]

theorem nodup_removeDuplicateTasks (l : List String) :
    (removeDuplicateTasks l).Nodup := nodup_removeDupAux [] l

theorem Reaches.trans {g : Graph} {a b c : String}
    (h₁ : Reaches g a b) (h₂ : Reaches g b c) : Reaches g a c := by
  induction h₂ with
  | refl => exact h₁
  | tail _ he ih => exact .tail ih he

theorem Reaches.single {g : Graph} {a b : String} (h : Edge g a b) :
    Reaches g a b := .tail (.refl a) h

theorem mem_of_lookup_eq_some {g : Graph} {c : String} {ds : List String}
    (hl : List.lookup c g = some ds) : (c, ds) ∈ g := by
  induction g with
  | nil => simp [List.lookup] at hl
  | cons p t ih =>
    rw [List.lookup] at hl
    cases hc : c == p.1 with
    | true =>
      rw [hc] at hl
      obtain ⟨p1, p2⟩ := p
      simp only at hl
      obtain rfl := Option.some.inj hl
      simp only [beq_iff_eq] at hc
      subst hc
      exact List.mem_cons_self _ _
    | false =>
      rw [hc] at hl
      exact List.mem_cons_of_mem _ (ih hl)

theorem mem_rawArgs_flatMap {g : Graph} {c d : String}
    (h : d ∈ rawArgs g c) : d ∈ g.flatMap Prod.snd := by
  unfold rawArgs at h
  cases hl : List.lookup c g with
  | none => rw [hl] at h; simp at h
  | some ds =>
    rw [hl] at h
    simp only [Option.getD_some] at h
    exact List.mem_flatMap.mpr ⟨(c, ds), mem_of_lookup_eq_some hl, h⟩

theorem mem_keyUniverse_of_inputs {g : Graph} {inputs : List String} {k : String}
    (h : k ∈ inputs) : k ∈ keyUniverse g inputs := by
  unfold keyUniverse
  rw [mem_removeDuplicateTasks]
  simp [h]

theorem mem_keyUniverse_of_dep {g : Graph} {inputs : List String} {c d : String}
    (h : d ∈ nodeDeps g c) : d ∈ keyUniverse g inputs := by
  unfold keyUniverse
  rw [mem_removeDuplicateTasks]
  have : d ∈ rawArgs g c := mem_removeDuplicateTasks.mp h
  simp [mem_rawArgs_flatMap this]

/-- A completed set drawn from a `GoodOrder` list is closed under
dependencies. -/
theorem GoodOrder.closed {g : Graph} : ∀ {l : List String}, GoodOrder g l →
    ∀ k ∈ l, ∀ d ∈ nodeDeps g k, d ∈ l := by
  intro l h
  induction h with
  | nil => simp
  | snoc hgood hdeps ih =>
    intro k hk d hd
    rcases List.mem_append.mp hk with hk | hk
    · exact List.mem_append_left _ (ih k hk d hd)
    · obtain rfl : k = _ := List.mem_singleton.mp hk
      exact List.mem_append_left _ (hdeps d hd)

theorem topoInv_init (g : Graph) (inputs : List String) :
    TopoInv g inputs (topoInit inputs) := by
  refine ⟨List.nodup_nil, by simp [topoInit], .nil, by simp [topoInit],
    by simp [topoInit], ?_, ?_, List.nodup_nil, by simp [topoInit], by simp [topoInit],
    by simp [topoInit]⟩
  · intro r hr
    exact mem_removeDuplicateTasks.mp hr
  · intro i hi
    exact Or.inr (Or.inl (mem_removeDuplicateTasks.mpr hi))

theorem visiting_empty_of_stack_nil {g : Graph} {inputs : List String}
    {roots vis comp sorted : List String}
    (hinv : TopoInv g inputs ⟨roots, [], vis, comp, sorted⟩) : vis = [] := by
  rw [List.eq_nil_iff_forall_not_mem]
  intro x hx
  obtain ⟨pre, post, habs, -⟩ := hinv.vis_decomp x hx
  exact absurd habs.symm (List.append_ne_nil_of_right_ne_nil pre (by simp))

theorem cons_decomp_of_ne {c x : String} {rest pre post : List String}
    (h : c :: rest = pre ++ x :: post) (hne : x ≠ c) :
    ∃ pre', pre = c :: pre' ∧ rest = pre' ++ x :: post := by
  cases pre with
  | nil =>
    simp only [List.nil_append, List.cons.injEq] at h
    exact absurd h.1.symm hne
  | cons a pre' =>
    simp only [List.cons_append, List.cons.injEq] at h
    exact ⟨pre', by rw [h.1], h.2⟩

theorem inv_outer_skip {g : Graph} {inputs : List String}
    {r : String} {rs vis comp sorted : List String}
    (hinv : TopoInv g inputs ⟨r :: rs, [], vis, comp, sorted⟩)
    (hr : r ∈ comp) : TopoInv g inputs ⟨rs, [], vis, comp, sorted⟩ := by
  obtain ⟨h₁, h₂, h₃, h₄, h₅, h₆, h₇, h₈, h₉, h₁₀, h₁₁⟩ := hinv
  refine ⟨h₁, h₂, h₃, h₄, h₅, fun x hx => h₆ x (List.mem_cons_of_mem _ hx), ?_, h₈, h₉, h₁₀, h₁₁⟩
  intro i hi
  rcases h₇ i hi with h | h | h
  · exact Or.inl h
  · rcases List.mem_cons.mp h with rfl | h
    · exact Or.inl hr
    · exact Or.inr (Or.inl h)
  · exact Or.inr (Or.inr h)

theorem inv_outer_push {g : Graph} {inputs : List String}
    {r : String} {rs vis comp sorted : List String}
    (hinv : TopoInv g inputs ⟨r :: rs, [], vis, comp, sorted⟩) :
    TopoInv g inputs ⟨rs, [r], vis, comp, sorted⟩ := by
  have hvis : vis = [] := visiting_empty_of_stack_nil hinv
  subst hvis
  obtain ⟨h₁, h₂, h₃, h₄, h₅, h₆, h₇, h₈, h₉, h₁₀, h₁₁⟩ := hinv
  have hrin : r ∈ inputs := h₆ r (List.mem_cons_self _ _)
  refine ⟨h₁, h₂, h₃, ?_, h₅, fun x hx => h₆ x (List.mem_cons_of_mem _ hx), ?_,
    List.nodup_nil, by simp, by simp, ?_⟩
  · intro k hk
    obtain rfl : k = r := List.mem_singleton.mp hk
    exact ⟨_, hrin, .refl _⟩
  · intro i hi
    rcases h₇ i hi with h | h | h
    · exact Or.inl h
    · rcases List.mem_cons.mp h with rfl | h
      · exact Or.inr (Or.inr (List.mem_singleton.mpr rfl))
      · exact Or.inr (Or.inl h)
    · simp at h
  · intro k hk
    obtain rfl : k = r := List.mem_singleton.mp hk
    exact mem_keyUniverse_of_inputs hrin

theorem inv_inner_skip {g : Graph} {inputs : List String}
    {c : String} {roots rest vis comp sorted : List String}
    (hinv : TopoInv g inputs ⟨roots, c :: rest, vis, comp, sorted⟩)
    (hc : c ∈ comp) : TopoInv g inputs ⟨roots, rest, vis, comp, sorted⟩ := by
  obtain ⟨h₁, h₂, h₃, h₄, h₅, h₆, h₇, h₈, h₉, h₁₀, h₁₁⟩ := hinv
  refine ⟨h₁, h₂, h₃, fun k hk => h₄ k (List.mem_cons_of_mem _ hk), h₅, h₆, ?_, h₈, h₉, ?_,
    fun k hk => h₁₁ k (List.mem_cons_of_mem _ hk)⟩
  · intro i hi
    rcases h₇ i hi with h | h | h
    · exact Or.inl h
    · exact Or.inr (Or.inl h)
    · rcases List.mem_cons.mp h with rfl | h
      · exact Or.inl hc
      · exact Or.inr (Or.inr h)
  · intro x hx
    obtain ⟨pre, post, hdec, hnotpre, hdeps, hreach⟩ := h₁₀ x hx
    have hxc : x ≠ c := fun h => (h₉ x hx) (h ▸ hc)
    obtain ⟨pre', rfl, hrest⟩ := cons_decomp_of_ne hdec hxc
    refine ⟨pre', post, hrest, fun h => hnotpre (List.mem_cons_of_mem _ h), ?_, ?_⟩
    · intro d hd
      rcases hdeps d hd with h | h
      · exact Or.inl h
      · rcases List.mem_cons.mp h with rfl | h
        · exact Or.inl hc
        · exact Or.inr h
    · intro y hy
      exact hreach y (List.mem_cons_of_mem _ hy)

theorem inv_complete {g : Graph} {inputs : List String}
    {c : String} {roots rest vis comp sorted : List String}
    (hinv : TopoInv g inputs ⟨roots, c :: rest, vis, comp, sorted⟩)
    (hc : c ∉ comp) (hdeps : ∀ d ∈ nodeDeps g c, d ∈ comp) :
    TopoInv g inputs ⟨roots, rest,
      (if c ∈ vis then vis else c :: vis).erase c, c :: comp, sorted ++ [c]⟩ := by
  have herase : (if c ∈ vis then vis else c :: vis).erase c = vis.erase c := by
    by_cases hcv : c ∈ vis
    · rw [if_pos hcv]
    · rw [if_neg hcv, List.erase_cons_head, List.erase_of_not_mem hcv]
  rw [herase]
  obtain ⟨h₁, h₂, h₃, h₄, h₅, h₆, h₇, h₈, h₉, h₁₀, h₁₁⟩ := hinv
  have hcsorted : c ∉ sorted := fun h => hc ((h₂ c).mpr h)
  refine ⟨?_, ?_, ?_, fun k hk => h₄ k (List.mem_cons_of_mem _ hk), ?_, h₆, ?_,
    h₈.erase c, ?_, ?_, fun k hk => h₁₁ k (List.mem_cons_of_mem _ hk)⟩
  · exact h₁.append (List.nodup_singleton c)
      (fun a ha hb => hcsorted (by rwa [List.mem_singleton.mp hb] at ha))
  · intro k
    simp only [List.mem_cons, List.mem_append, List.mem_singleton, h₂ k]
    tauto
  · exact h₃.snoc (fun d hd => (h₂ d).mp (hdeps d hd))
  · intro k hk
    rcases List.mem_append.mp hk with h | h
    · exact h₅ k h
    · obtain rfl : k = c := List.mem_singleton.mp h
      exact h₄ _ (List.mem_cons_self _ _)
  · intro i hi
    rcases h₇ i hi with h | h | h
    · exact Or.inl (List.mem_cons_of_mem _ h)
    · exact Or.inr (Or.inl h)
    · rcases List.mem_cons.mp h with rfl | h
      · exact Or.inl (List.mem_cons_self _ _)
      · exact Or.inr (Or.inr h)
  · intro x hx
    have hx' : x ∈ vis := (vis.erase_subset c) hx
    have hxc : x ≠ c := by
      intro h
      subst h
      exact (List.Nodup.not_mem_erase h₈) hx
    intro hmem
    rcases List.mem_cons.mp hmem with h | h
    · exact hxc h
    · exact h₉ x hx' h
  · intro x hx
    have hx' : x ∈ vis := (vis.erase_subset c) hx
    have hxc : x ≠ c := by
      intro h
      subst h
      exact (List.Nodup.not_mem_erase h₈) hx
    obtain ⟨pre, post, hdec, hnotpre, hdeps', hreach⟩ := h₁₀ x hx'
    obtain ⟨pre', rfl, hrest⟩ := cons_decomp_of_ne hdec hxc
    refine ⟨pre', post, hrest, fun h => hnotpre (List.mem_cons_of_mem _ h), ?_, ?_⟩
    · intro d hd
      rcases hdeps' d hd with h | h
      · exact Or.inl (List.mem_cons_of_mem _ h)
      · rcases List.mem_cons.mp h with rfl | h
        · exact Or.inl (List.mem_cons_self _ _)
        · exact Or.inr h
    · intro y hy
      exact hreach y (List.mem_cons_of_mem _ hy)

theorem push_not_visiting {g : Graph} {inputs : List String}
    {c : String} {roots rest vis comp sorted : List String}
    (hinv : TopoInv g inputs ⟨roots, c :: rest, vis, comp, sorted⟩)
    (hsome : ∃ d ∈ nodeDeps g c, d ∉ comp) : c ∉ vis := by
  intro hcv
  obtain ⟨pre, post, hdec, hnotpre, hdeps, -⟩ := hinv.vis_decomp c hcv
  have hpre : pre = [] := by
    cases pre with
    | nil => rfl
    | cons a pre' =>
      simp only [List.cons_append, List.cons.injEq] at hdec
      exact absurd (hdec.1 ▸ List.mem_cons_self a pre') (hdec.1 ▸ hnotpre)
  subst hpre
  obtain ⟨d, hd, hdc⟩ := hsome
  rcases hdeps d hd with h | h
  · exact hdc h
  · simp at h

theorem inv_push {g : Graph} {inputs : List String}
    {c : String} {roots rest vis comp sorted : List String}
    (hinv : TopoInv g inputs ⟨roots, c :: rest, vis, comp, sorted⟩)
    (hc : c ∉ comp)
    (hnocycle : ∀ d ∈ nodeDeps g c, d ∉ comp →
      d ∉ (if c ∈ vis then vis else c :: vis))
    (hsome : ∃ d ∈ nodeDeps g c, d ∉ comp) :
    TopoInv g inputs ⟨roots,
      ((nodeDeps g c).filter (fun d => !(decide (d ∈ comp)))).reverse ++ c :: rest,
      if c ∈ vis then vis else c :: vis, comp, sorted⟩ := by
  have hcv : c ∉ vis := push_not_visiting hinv hsome
  rw [if_neg hcv] at hnocycle ⊢
  set inc := (nodeDeps g c).filter (fun d => !(decide (d ∈ comp))) with hinc
  have hmem_inc : ∀ d, d ∈ inc ↔ d ∈ nodeDeps g c ∧ d ∉ comp := by
    intro d
    simp [hinc, List.mem_filter]
  have hcninc : c ∉ inc := by
    intro h
    obtain ⟨hd, hdc⟩ := (hmem_inc c).mp h
    exact hnocycle c hd hdc (List.mem_cons_self _ _)
  have hincvis : ∀ d ∈ inc, d ∉ c :: vis := by
    intro d hd
    obtain ⟨hd₁, hd₂⟩ := (hmem_inc d).mp hd
    exact hnocycle d hd₁ hd₂
  obtain ⟨h₁, h₂, h₃, h₄, h₅, h₆, h₇, h₈, h₉, h₁₀, h₁₁⟩ := hinv
  have hreach_c : ∃ i ∈ inputs, Reaches g i c := h₄ c (List.mem_cons_self _ _)
  refine ⟨h₁, h₂, h₃, ?_, h₅, h₆, ?_, ?_, ?_, ?_, ?_⟩
  · intro k hk
    rcases List.mem_append.mp hk with h | h
    · obtain ⟨hd₁, -⟩ := (hmem_inc k).mp (List.mem_reverse.mp h)
      obtain ⟨i, hi, hreach⟩ := hreach_c
      exact ⟨i, hi, hreach.tail hd₁⟩
    · exact h₄ k h
  · intro i hi
    rcases h₇ i hi with h | h | h
    · exact Or.inl h
    · exact Or.inr (Or.inl h)
    · refine Or.inr (Or.inr ?_)
      rcases List.mem_cons.mp h with rfl | h
      · exact List.mem_append_right _ (List.mem_cons_self _ _)
      · exact List.mem_append_right _ (List.mem_cons_of_mem _ h)
  · exact List.nodup_cons.mpr ⟨hcv, h₈⟩
  · intro x hx
    rcases List.mem_cons.mp hx with rfl | hx
    · exact hc
    · exact h₉ x hx
  · intro x hx
    rcases List.mem_cons.mp hx with rfl | hx
    · refine ⟨inc.reverse, rest, rfl, fun h => hcninc (List.mem_reverse.mp h), ?_, ?_⟩
      · intro d hd
        by_cases hdc : d ∈ comp
        · exact Or.inl hdc
        · exact Or.inr (List.mem_reverse.mpr ((hmem_inc d).mpr ⟨hd, hdc⟩))
      · intro y hy
        obtain ⟨hy₁, -⟩ := (hmem_inc y).mp (List.mem_reverse.mp hy)
        exact Reaches.single hy₁
    · have hxc : x ≠ c := fun h => hcv (h ▸ hx)
      obtain ⟨pre, post, hdec, hnotpre, hdeps', hreach⟩ := h₁₀ x hx
      obtain ⟨pre', rfl, hrest⟩ := cons_decomp_of_ne hdec hxc
      refine ⟨inc.reverse ++ c :: pre', post, by rw [hrest]; simp, ?_, ?_, ?_⟩
      · intro h
        rcases List.mem_append.mp h with h | h
        · exact hincvis x (List.mem_reverse.mp h) (List.mem_cons_of_mem _ hx)
        · exact hnotpre h
      · intro d hd
        rcases hdeps' d hd with h | h
        · exact Or.inl h
        · exact Or.inr (List.mem_append_right _ h)
      · intro y hy
        rcases List.mem_append.mp hy with h | h
        · obtain ⟨hy₁, -⟩ := (hmem_inc y).mp (List.mem_reverse.mp h)
          have hxc' : Reaches g x c := hreach c (List.mem_cons_self _ _)
          exact hxc'.tail hy₁
        · exact hreach y h
  · intro k hk
    rcases List.mem_append.mp hk with h | h
    · obtain ⟨hd₁, -⟩ := (hmem_inc k).mp (List.mem_reverse.mp h)
      exact mem_keyUniverse_of_dep hd₁
    · exact h₁₁ k h

theorem sumW_cons (g : Graph) (k : String) (l : List String) :
    sumW g (k :: l) = keyWeight g k + sumW g l := rfl

theorem sumW_le_of_imp (g : Graph) : ∀ (U : List String) (p q : String → Bool),
    (∀ k, p k = true → q k = true) → sumW g (U.filter p) ≤ sumW g (U.filter q) := by
  intro U
  induction U with
  | nil => intro p q _; exact Nat.le_refl _
  | cons u t ih =>
    intro p q h
    by_cases hp : p u = true
    · rw [List.filter_cons_of_pos hp, List.filter_cons_of_pos (h u hp),
        sumW_cons, sumW_cons]
      exact Nat.add_le_add_left (ih p q h) _
    · rw [List.filter_cons_of_neg (by simpa using hp)]
      by_cases hq : q u = true
      · rw [List.filter_cons_of_pos hq, sumW_cons]
        exact Nat.le_trans (ih p q h) (Nat.le_add_left _ _)
      · rw [List.filter_cons_of_neg (by simpa using hq)]
        exact ih p q h

theorem sumW_filter_congr (g : Graph) : ∀ (U : List String) (p q : String → Bool),
    (∀ k ∈ U, p k = q k) → sumW g (U.filter p) = sumW g (U.filter q) := by
  intro U
  induction U with
  | nil => intro p q _; rfl
  | cons u t ih =>
    intro p q h
    have hu : p u = q u := h u (List.mem_cons_self _ _)
    have ht : ∀ k ∈ t, p k = q k := fun k hk => h k (List.mem_cons_of_mem _ hk)
    by_cases hp : p u = true
    · rw [List.filter_cons_of_pos hp, List.filter_cons_of_pos (hu ▸ hp),
        sumW_cons, sumW_cons, ih p q ht]
    · rw [List.filter_cons_of_neg (by simpa using hp),
        List.filter_cons_of_neg (by simp [← hu]; simpa using hp)]
      exact ih p q ht

theorem sumW_filter_split (g : Graph) (c : String) : ∀ (U : List String),
    U.Nodup → c ∈ U → ∀ (p q : String → Bool), p c = true →
    (∀ k, q k = (p k && !(k == c))) →
    sumW g (U.filter p) = keyWeight g c + sumW g (U.filter q) := by
  intro U
  induction U with
  | nil => intro _ hc; simp at hc
  | cons u t ih =>
    intro hnd hc p q hpc hq
    have hndt : t.Nodup := (List.nodup_cons.mp hnd).2
    by_cases huc : u = c
    · subst huc
      have hut : u ∉ t := (List.nodup_cons.mp hnd).1
      rw [List.filter_cons_of_pos hpc, sumW_cons]
      have hqu : q u = false := by rw [hq]; simp
      rw [List.filter_cons_of_neg (by simp [hqu])]
      have : sumW g (t.filter p) = sumW g (t.filter q) := by
        apply sumW_filter_congr
        intro k hk
        have hkc : k ≠ u := fun h => hut (h ▸ hk)
        rw [hq]
        simp [hkc]
      rw [this]
    · have hct : c ∈ t := by
        rcases List.mem_cons.mp hc with h | h
        · exact absurd h.symm huc
        · exact h
      have hqu : q u = p u := by
        rw [hq]
        have : (u == c) = false := by simpa using huc
        simp [this]
      by_cases hp : p u = true
      · rw [List.filter_cons_of_pos hp, List.filter_cons_of_pos (by rw [hqu]; exact hp),
          sumW_cons, sumW_cons, ih hndt hct p q hpc hq]
        omega
      · rw [List.filter_cons_of_neg (by simpa using hp),
          List.filter_cons_of_neg (by rw [hqu]; simpa using hp)]
        exact ih hndt hct p q hpc hq

theorem nodup_keyUniverse (g : Graph) (inputs : List String) :
    (keyUniverse g inputs).Nodup := nodup_removeDuplicateTasks _

theorem measure_outer_skip (g : Graph) (inputs : List String)
    (r : String) (rs vis comp sorted : List String) :
    topoMeasure g inputs ⟨rs, [], vis, comp, sorted⟩ <
      topoMeasure g inputs ⟨r :: rs, [], vis, comp, sorted⟩ := by
  simp only [topoMeasure, List.length_cons, List.length_nil]
  omega

theorem measure_outer_push (g : Graph) (inputs : List String)
    (r : String) (rs vis comp sorted : List String) :
    topoMeasure g inputs ⟨rs, [r], vis, comp, sorted⟩ <
      topoMeasure g inputs ⟨r :: rs, [], vis, comp, sorted⟩ := by
  simp only [topoMeasure, List.length_cons, List.length_nil, List.length_singleton]
  omega

theorem measure_inner_skip (g : Graph) (inputs : List String)
    (c : String) (roots rest vis comp sorted : List String) :
    topoMeasure g inputs ⟨roots, rest, vis, comp, sorted⟩ <
      topoMeasure g inputs ⟨roots, c :: rest, vis, comp, sorted⟩ := by
  simp only [topoMeasure, List.length_cons]
  omega

theorem measure_complete (g : Graph) (inputs : List String)
    (c : String) (roots rest vis comp sorted : List String) :
    topoMeasure g inputs ⟨roots, rest,
        (if c ∈ vis then vis else c :: vis).erase c, c :: comp, sorted ++ [c]⟩ <
      topoMeasure g inputs ⟨roots, c :: rest, vis, comp, sorted⟩ := by
  simp only [topoMeasure, List.length_cons]
  have hsum : sumW g ((keyUniverse g inputs).filter
      (fun k => decide (k ∉ (c :: comp)) &&
        decide (k ∉ (if c ∈ vis then vis else c :: vis).erase c))) ≤
      sumW g ((keyUniverse g inputs).filter
      (fun k => decide (k ∉ comp) && decide (k ∉ vis))) := by
    apply sumW_le_of_imp
    intro k hk
    simp only [Bool.and_eq_true, decide_eq_true_eq, List.mem_cons, not_or] at hk ⊢
    obtain ⟨⟨hkc, hkcomp⟩, hkerase⟩ := hk
    refine ⟨hkcomp, fun hkv => hkerase ?_⟩
    have hkv' : k ∈ (if c ∈ vis then vis else c :: vis) := by
      by_cases hcv : c ∈ vis
      · rwa [if_pos hcv]
      · rw [if_neg hcv]; exact List.mem_cons_of_mem _ hkv
    exact (List.mem_erase_of_ne hkc).mpr hkv'
  omega

theorem measure_push (g : Graph) (inputs : List String)
    (c : String) (roots rest vis comp sorted : List String)
    (hcu : c ∈ keyUniverse g inputs) (hccomp : c ∉ comp) (hcvis : c ∉ vis) :
    topoMeasure g inputs ⟨roots,
        ((nodeDeps g c).filter (fun d => !(decide (d ∈ comp)))).reverse ++ c :: rest,
        c :: vis, comp, sorted⟩ <
      topoMeasure g inputs ⟨roots, c :: rest, vis, comp, sorted⟩ := by
  simp only [topoMeasure, List.length_cons, List.length_append, List.length_reverse]
  have hsplit : sumW g ((keyUniverse g inputs).filter
      (fun k => decide (k ∉ comp) && decide (k ∉ vis))) =
      keyWeight g c + sumW g ((keyUniverse g inputs).filter
      (fun k => decide (k ∉ comp) && decide (k ∉ (c :: vis)))) := by
    apply sumW_filter_split g c _ (nodup_keyUniverse g inputs) hcu
    · simp [hccomp, hcvis]
    · intro k
      by_cases hkc : k = c
      · subst hkc; simp
      · have h1 : (k == c) = false := by simpa using hkc
        simp [h1, List.mem_cons, hkc]
  have hlen : ((nodeDeps g c).filter (fun d => !(decide (d ∈ comp)))).length ≤
      (nodeDeps g c).length := List.length_filter_le _ _
  have hw : keyWeight g c = 2 + (nodeDeps g c).length := rfl
  omega

/-- From a state whose stack and roots are empty, everything completed
is in `sorted` and everything reachable from a completed key is in
`sorted`. -/
theorem sorted_closed_under_reach {g : Graph} {inputs : List String}
    {vis comp sorted : List String}
    (hinv : TopoInv g inputs ⟨[], [], vis, comp, sorted⟩)
    {i k : String} (hi : i ∈ comp) (hr : Reaches g i k) : k ∈ sorted := by
  induction hr with
  | refl => exact (hinv.completed_iff i).mp hi
  | tail hreach hedge ih => exact hinv.good.closed _ ih _ hedge

/-- Master theorem for the `toposort` state machine: from any state
satisfying the invariant, with fuel exceeding the measure, the run either
returns a `GoodFinal` list or raises a cycle error whose reported edge
`a -> b` is a real edge whose target reaches back to its source. -/
theorem topo_master (g : Graph) (inputs : List String) : ∀ (fuel : Nat) (st : TopoSt),
    TopoInv g inputs st → topoMeasure g inputs st < fuel →
    (∃ out, topoStep g fuel st = .ok out ∧ GoodFinal g inputs out) ∨
    (∃ a b, topoStep g fuel st = .cycle a b ∧ Edge g a b ∧ Reaches g b a) := by
  intro fuel
  induction fuel with
  | zero => intro st _ hm; omega
  | succ fuel ih =>
    intro st hinv hm
    obtain ⟨roots, stack, vis, comp, sorted⟩ := st
    cases stack with
    | nil =>
      cases roots with
      | nil =>
        left
        refine ⟨sorted, rfl, hinv.sorted_nodup, hinv.good, ?_⟩
        intro k
        constructor
        · exact fun hk => hinv.reach_sorted k hk
        · rintro ⟨i, hi, hreach⟩
          have hicomp : i ∈ comp := by
            rcases hinv.cover i hi with h | h | h
            · exact h
            · simp at h
            · simp at h
          exact sorted_closed_under_reach hinv hicomp hreach
      | cons r rs =>
        by_cases hr : r ∈ comp
        · have hred : topoStep g (fuel + 1) ⟨r :: rs, [], vis, comp, sorted⟩ =
              topoStep g fuel ⟨rs, [], vis, comp, sorted⟩ := by
            simp [topoStep, hr]
          rw [hred]
          exact ih _ (inv_outer_skip hinv hr)
            (by have := measure_outer_skip g inputs r rs vis comp sorted; omega)
        · have hred : topoStep g (fuel + 1) ⟨r :: rs, [], vis, comp, sorted⟩ =
              topoStep g fuel ⟨rs, [r], vis, comp, sorted⟩ := by
            simp [topoStep, hr]
          rw [hred]
          exact ih _ (inv_outer_push hinv)
            (by have := measure_outer_push g inputs r rs vis comp sorted; omega)
    | cons c rest =>
      by_cases hc : c ∈ comp
      · have hred : topoStep g (fuel + 1) ⟨roots, c :: rest, vis, comp, sorted⟩ =
            topoStep g fuel ⟨roots, rest, vis, comp, sorted⟩ := by
          simp [topoStep, hc]
        rw [hred]
        exact ih _ (inv_inner_skip hinv hc)
          (by have := measure_inner_skip g inputs c roots rest vis comp sorted; omega)
      · cases hfind : (nodeDeps g c).find?
            (fun d => !(decide (d ∈ comp)) &&
              decide (d ∈ (if c ∈ vis then vis else c :: vis))) with
        | some d =>
          right
          refine ⟨c, d, ?_, ?_, ?_⟩
          · simp [topoStep, hc, hfind]
          · exact List.mem_of_find?_eq_some hfind
          · have hpred := List.find?_some hfind
            simp only [Bool.and_eq_true, Bool.not_eq_true', decide_eq_true_eq,
              decide_eq_false_iff_not] at hpred
            obtain ⟨hdcomp, hdvis⟩ := hpred
            by_cases hdc : d = c
            · exact hdc ▸ Reaches.refl d
            · have hdvis' : d ∈ vis := by
                by_cases hcv : c ∈ vis
                · rwa [if_pos hcv] at hdvis
                · rw [if_neg hcv] at hdvis
                  rcases List.mem_cons.mp hdvis with h | h
                  · exact absurd h hdc
                  · exact h
              obtain ⟨pre, post, hdec, hnotpre, -, hreach⟩ := hinv.vis_decomp d hdvis'
              obtain ⟨pre', rfl, -⟩ := cons_decomp_of_ne hdec hdc
              exact hreach c (List.mem_cons_self _ _)
        | none =>
          have hnone := List.find?_eq_none.mp hfind
          by_cases hinc : ((nodeDeps g c).filter
              (fun d => !(decide (d ∈ comp)))).isEmpty = true
          · have hdeps : ∀ d ∈ nodeDeps g c, d ∈ comp := by
              intro d hd
              by_contra hdc
              have : d ∈ (nodeDeps g c).filter (fun d => !(decide (d ∈ comp))) :=
                List.mem_filter.mpr ⟨hd, by simpa using hdc⟩
              rw [List.isEmpty_iff] at hinc
              rw [hinc] at this
              simp at this
            have hred : topoStep g (fuel + 1) ⟨roots, c :: rest, vis, comp, sorted⟩ =
                topoStep g fuel ⟨roots, rest,
                  (if c ∈ vis then vis else c :: vis).erase c,
                  c :: comp, sorted ++ [c]⟩ := by
              simp [topoStep, hc, hfind, hinc]
            rw [hred]
            exact ih _ (inv_complete hinv hc hdeps)
              (by have := measure_complete g inputs c roots rest vis comp sorted; omega)
          · have hsome : ∃ d ∈ nodeDeps g c, d ∉ comp := by
              rcases List.exists_cons_of_ne_nil (List.isEmpty_iff.not.mp hinc)
                with ⟨d, t, hdt⟩
              have : d ∈ (nodeDeps g c).filter (fun d => !(decide (d ∈ comp))) := by
                rw [hdt]; exact List.mem_cons_self _ _
              obtain ⟨h₁, h₂⟩ := List.mem_filter.mp this
              exact ⟨d, h₁, by simpa using h₂⟩
            have hnocycle : ∀ d ∈ nodeDeps g c, d ∉ comp →
                d ∉ (if c ∈ vis then vis else c :: vis) := by
              intro d hd hdc hdvis
              have := hnone d hd
              simp only [Bool.and_eq_true, Bool.not_eq_true', not_and,
                decide_eq_false_iff_not, decide_eq_true_eq] at this
              exact absurd hdvis (by simpa [hdc] using this)
            have hcvis : c ∉ vis := push_not_visiting hinv hsome
            have hred : topoStep g (fuel + 1) ⟨roots, c :: rest, vis, comp, sorted⟩ =
                topoStep g fuel ⟨roots,
                  ((nodeDeps g c).filter (fun d => !(decide (d ∈ comp)))).reverse ++
                    c :: rest,
                  if c ∈ vis then vis else c :: vis, comp, sorted⟩ := by
              simp [topoStep, hc, hfind, hinc]
            rw [hred]
            have hmeas := measure_push g inputs c roots rest vis comp sorted
              (hinv.stack_univ c (List.mem_cons_self _ _)) hc hcvis
            rw [if_neg hcvis]
            refine ih _ ?_ (by omega)
            have := inv_push hinv hc hnocycle hsome
            rwa [if_neg hcvis] at this

theorem indexOf_append_snoc {c : String} : ∀ (l : List String), c ∉ l →
    (l ++ [c]).indexOf c = l.length := by
  intro l
  induction l with
  | nil => simp
  | cons a t ih =>
    intro h
    have hac : c ≠ a := fun hh => h (hh ▸ List.mem_cons_self a t)
    rw [List.cons_append, List.indexOf_cons_ne _ (by simpa using hac.symm),
      ih (fun hh => h (List.mem_cons_of_mem _ hh))]
    simp

/-- In a `GoodOrder` list, every dependency of a member occurs strictly
earlier than the member. -/
theorem GoodOrder.indexOf_lt {g : Graph} : ∀ {l : List String}, GoodOrder g l →
    l.Nodup → ∀ k ∈ l, ∀ d ∈ nodeDeps g k, d ∈ l ∧ l.indexOf d < l.indexOf k := by
  intro l hgood
  induction hgood with
  | nil => simp
  | snoc hgood hdeps ih =>
    intro hnd k hk d hd
    rename_i l c
    have hndl : l.Nodup := (List.nodup_append.mp hnd).1
    have hcl : c ∉ l := by
      intro hcl
      have := (List.nodup_append.mp hnd).2.2
      exact this hcl (List.mem_singleton.mpr rfl)
    rcases List.mem_append.mp hk with hkl | hkc
    · obtain ⟨hdl, hidx⟩ := ih hndl k hkl d hd
      refine ⟨List.mem_append_left _ hdl, ?_⟩
      rw [List.indexOf_append_of_mem hdl, List.indexOf_append_of_mem hkl]
      exact hidx
    · obtain rfl : k = c := List.mem_singleton.mp hkc
      have hdl : d ∈ l := hdeps d hd
      refine ⟨List.mem_append_left _ hdl, ?_⟩
      rw [List.indexOf_append_of_mem hdl, indexOf_append_snoc l hcl]
      exact List.indexOf_lt_length.mpr hdl

/-- Along the reachability relation, positions in a `GoodOrder` list
never increase. -/
theorem reaches_indexOf_le {g : Graph} {out : List String}
    (hgood : GoodOrder g out) (hnd : out.Nodup) {x y : String}
    (hx : x ∈ out) (hr : Reaches g x y) :
    y ∈ out ∧ out.indexOf y ≤ out.indexOf x := by
  induction hr with
  | refl => exact ⟨hx, Nat.le_refl _⟩
  | tail hreach hedge ih =>
    obtain ⟨hb, hidxb⟩ := ih
    obtain ⟨hcmem, hidxc⟩ := hgood.indexOf_lt hnd _ hb _ hedge
    exact ⟨hcmem, Nat.le_trans (Nat.le_of_lt hidxc) hidxb⟩

/-- A `GoodFinal` output admits no reachable back edge. -/
theorem no_cycle_of_goodFinal {g : Graph} {inputs out : List String}
    (hfin : GoodFinal g inputs out) {a d : String}
    (ha : a ∈ out) (hedge : Edge g a d) (hreach : Reaches g d a) : False := by
  obtain ⟨hnd, hgood, -⟩ := hfin
  obtain ⟨hdmem, hidxd⟩ := hgood.indexOf_lt hnd a ha d hedge
  obtain ⟨-, hidxa⟩ := reaches_indexOf_le hgood hnd hdmem hreach
  omega

/-- On an acyclic graph, `toposort` succeeds and its output is a
duplicate-free topological ordering of exactly the tasks reachable from
the input list. -/
theorem toposortRun_of_acyclic (g : Graph) (inputs : List String)
    (hac : Acyclic g) :
    ∃ out, toposortRun g inputs = .ok out ∧ GoodFinal g inputs out := by
  rcases topo_master g inputs (topoFuel g inputs) (topoInit inputs)
      (topoInv_init g inputs) (by unfold topoFuel; omega) with h | ⟨a, b, -, hedge, hreach⟩
  · exact h
  · exact absurd hreach (hac a b hedge)

/-- Whatever list a `toposort` run returns is a `GoodFinal` list (no
acyclicity assumption needed: a successful run certifies it). -/
theorem goodFinal_of_toposortRun_ok {g : Graph} {inputs out : List String}
    (h : toposortRun g inputs = .ok out) : GoodFinal g inputs out := by
  rcases topo_master g inputs (topoFuel g inputs) (topoInit inputs)
      (topoInv_init g inputs) (by unfold topoFuel; omega) with ⟨out', heq, hfin⟩ | ⟨a, b, heq, -⟩
  · unfold toposortRun at h
    rw [heq] at h
    obtain rfl : out' = out := by
      cases h
      rfl
    exact hfin
  · unfold toposortRun at h
    rw [heq] at h
    cases h

/-- If a cycle is reachable from the inputs, `toposort` raises a cycle
error reporting a genuine back edge. -/
theorem toposortRun_cycle (g : Graph) (inputs : List String)
    (hcyc : ∃ i ∈ inputs, ∃ a d, Reaches g i a ∧ Edge g a d ∧ Reaches g d a) :
    ∃ a b, toposortRun g inputs = .cycle a b ∧ Edge g a b ∧ Reaches g b a := by
  rcases topo_master g inputs (topoFuel g inputs) (topoInit inputs)
      (topoInv_init g inputs) (by unfold topoFuel; omega) with ⟨out, -, hfin⟩ | h
  · exfalso
    obtain ⟨i, hi, a, d, hia, hedge, hback⟩ := hcyc
    have ha : a ∈ out := (hfin.2.2 a).mpr ⟨i, hi, hia⟩
    exact no_cycle_of_goodFinal hfin ha hedge hback
  · exact h

/-- The work loop of `dependencies({deep: true})` never records anything
when every queued task is already in `seen`. -/
theorem depsDeepLoop_all_seen (g : Graph) : ∀ (fuel : Nat) (seen work acc : List String),
    (∀ k ∈ work, k ∈ seen) → depsDeepLoop g fuel seen work acc = acc := by
  intro fuel
  induction fuel with
  | zero => intro seen work acc _; rfl
  | succ fuel ih =>
    intro seen work acc hsub
    cases work with
    | nil => rfl
    | cons k rest =>
      have hk : k ∈ seen := hsub k (List.mem_cons_self _ _)
      simp only [depsDeepLoop, if_pos hk]
      exact ih seen rest acc (fun x hx => hsub x (List.mem_cons_of_mem _ hx))

/-- Theorem: `dependencies({deep: true})` returns exactly the direct
dependencies: the traversal loop is dead because `seen` is seeded with
the entire initial work list. -/
theorem dependenciesDeep_eq_direct (g : Graph) (k : String) :
    dependenciesDeep g k = nodeDeps g k :=
  depsDeepLoop_all_seen g _ _ _ _ (fun _ hx => hx)

/-- A strictly-decreasing rank function certifies acyclicity. -/
theorem reaches_rank_le {g : Graph} {rank : String → Nat}
    (h : ∀ p ∈ g, ∀ d ∈ nodeDeps g p.1, rank d < rank p.1)
    {a b : String} (hr : Reaches g a b) : rank b ≤ rank a := by
  induction hr with
  | refl => exact Nat.le_refl _
  | tail hreach hedge ih =>
    rename_i x y
    refine Nat.le_trans (Nat.le_of_lt ?_) ih
    unfold Edge nodeDeps rawArgs at hedge
    cases hl : List.lookup x g with
    | none => rw [hl] at hedge; simp [removeDuplicateTasks, removeDupAux] at hedge
    | some ds =>
      rw [hl] at hedge
      have := h (x, ds) (mem_of_lookup_eq_some hl) y
      unfold nodeDeps rawArgs at this
      rw [hl] at this
      exact this hedge

theorem acyclic_of_rank (g : Graph) (rank : String → Nat)
    (h : ∀ p ∈ g, ∀ d ∈ nodeDeps g p.1, rank d < rank p.1) : Acyclic g := by
  intro a b hedge hreach
  have h₁ : rank a ≤ rank b := reaches_rank_le h hreach
  unfold Edge nodeDeps rawArgs at hedge
  cases hl : List.lookup a g with
  | none => rw [hl] at hedge; simp [removeDuplicateTasks, removeDupAux] at hedge
  | some ds =>
    rw [hl] at hedge
    have := h (a, ds) (mem_of_lookup_eq_some hl) b
    unfold nodeDeps rawArgs at this
    rw [hl] at this
    exact absurd h₁ (Nat.not_le_of_lt (this hedge))

theorem lookup_append_left {β : Type} {m m' : List (String × β)} {x : String} {v : β}
    (h : List.lookup x m = some v) : List.lookup x (m ++ m') = some v := by
  induction m with
  | nil => simp [List.lookup] at h
  | cons p t ih =>
    rw [List.lookup] at h
    show List.lookup x (p :: (t ++ m')) = some v
    rw [List.lookup]
    cases hx : x == p.1 with
    | true => rw [hx] at h; exact h
    | false => rw [hx] at h; exact ih h

theorem lookup_append_right {β : Type} {m m' : List (String × β)} {x : String}
    (h : ∀ p ∈ m, p.1 ≠ x) : List.lookup x (m ++ m') = List.lookup x m' := by
  induction m with
  | nil => rfl
  | cons p t ih =>
    show List.lookup x (p :: (t ++ m')) = List.lookup x m'
    rw [List.lookup]
    have hpx : (x == p.1) = false := by
      simpa using (fun he => h p (List.mem_cons_self _ _) he.symm)
    rw [hpx]
    exact ih (fun q hq => h q (List.mem_cons_of_mem _ hq))

theorem lookup_isSome_of_mem_keys {β : Type} {m : List (String × β)} {x : String}
    (h : x ∈ m.map Prod.fst) : ∃ v, List.lookup x m = some v := by
  induction m with
  | nil => simp at h
  | cons p t ih =>
    rw [List.lookup]
    by_cases hx : x = p.1
    · rw [show (x == p.1) = true by simpa using hx]
      exact ⟨p.2, rfl⟩
    · rw [show (x == p.1) = false by simpa using hx]
      apply ih
      rcases List.mem_map.mp h with ⟨q, hq, hqx⟩
      rcases List.mem_cons.mp hq with rfl | hq'
      · exact absurd hqx.symm hx
      · exact List.mem_map.mpr ⟨q, hq', hqx⟩

theorem layersByKey_comp (g : Graph) : ∀ (l₁ l₂ : List String) (m : List (String × Nat)),
    layersByKey g (l₁ ++ l₂) m = layersByKey g l₂ (layersByKey g l₁ m) := by
  intro l₁
  induction l₁ with
  | nil => intro l₂ m; rfl
  | cons k t ih => intro l₂ m; rw [List.cons_append, layersByKey, layersByKey, ih]

theorem layersByKey_shape (g : Graph) : ∀ (ks : List String) (m : List (String × Nat)),
    ∃ m', layersByKey g ks m = m ++ m' ∧ m'.map Prod.fst = ks := by
  intro ks
  induction ks with
  | nil => intro m; exact ⟨[], by simp [layersByKey]⟩
  | cons k t ih =>
    intro m
    obtain ⟨m', hm', hk'⟩ := ih (m ++ [(k, layerOfTask g m k)])
    refine ⟨(k, layerOfTask g m k) :: m', ?_, by simp [hk']⟩
    rw [layersByKey, hm']
    simp

theorem foldl_max_cast : ∀ (ns : List Nat) (a : Nat),
    (ns.map (Nat.cast : Nat → Int)).foldl max (a : Int) = ((ns.foldl max a : Nat) : Int) := by
  intro ns
  induction ns with
  | nil => intro a; rfl
  | cons n t ih =>
    intro a
    rw [List.map_cons, List.foldl_cons, List.foldl_cons, ← Nat.cast_max, ih]

theorem foldl_max_neg_one (n : Nat) (ns : List Nat) :
    ((n :: ns).map (Nat.cast : Nat → Int)).foldl max (-1 : Int) =
      (((n :: ns).foldl max 0 : Nat) : Int) := by
  rw [List.map_cons, List.foldl_cons, List.foldl_cons]
  have h₁ : max (-1 : Int) (n : Int) = (n : Int) := by
    apply max_eq_right
    exact Int.le_trans (by omega) (Int.ofNat_nonneg n)
  have h₂ : max 0 n = n := Nat.max_eq_right (Nat.zero_le n)
  rw [h₁, h₂]
  exact foldl_max_cast ns n

/-- The layer value computed for `k` from map `m`, in `Nat` form. -/
theorem layerOfTask_formula (g : Graph) (m : List (String × Nat)) (k : String) :
    layerOfTask g m k =
      if (nodeDeps g k).isEmpty then 0
      else ((nodeDeps g k).map (getL m)).foldl max 0 + 1 := by
  unfold layerOfTask
  cases hds : nodeDeps g k with
  | nil => simp
  | cons d ds =>
    rw [if_neg (by simp : ¬((d :: ds).isEmpty = true))]
    have hmap : (d :: ds).map (fun x => ((List.lookup x m).getD 0 : Int)) =
        (getL m d : Int) :: (ds.map (getL m)).map (Nat.cast : Nat → Int) := by
      simp [getL, Function.comp]
    rw [hmap]
    have hfold := foldl_max_neg_one (getL m d) (ds.map (getL m))
    rw [List.map_cons] at hfold
    rw [hfold]
    have hcons : ((d :: ds).map (getL m)).foldl max 0 =
        (getL m d :: ds.map (getL m)).foldl max 0 := by rw [List.map_cons]
    rw [hcons]
    omega

/-- The recurrence the final `layersByKey` map satisfies on a
topologically ordered, duplicate-free task list: tasks without
dependencies get layer 0, every other task gets one more than the
maximum layer of its direct dependencies. -/
theorem layers_recurrence {g : Graph} : ∀ {sorted : List String},
    GoodOrder g sorted → sorted.Nodup → ∀ k ∈ sorted,
    getL (layersByKey g sorted []) k =
      if (nodeDeps g k).isEmpty then 0
      else ((nodeDeps g k).map (getL (layersByKey g sorted []))).foldl max 0 + 1 := by
  intro sorted hgood
  induction hgood with
  | nil => simp
  | snoc hgood hdeps ih =>
    rename_i l c
    intro hnd k hk
    have hndl : l.Nodup := (List.nodup_append.mp hnd).1
    have hcl : c ∉ l := by
      intro hcl
      exact (List.nodup_append.mp hnd).2.2 hcl (List.mem_singleton.mpr rfl)
    have hM : layersByKey g (l ++ [c]) [] =
        layersByKey g l [] ++ [(c, layerOfTask g (layersByKey g l []) c)] := by
      rw [layersByKey_comp]
      rfl
    obtain ⟨ml, hml, hmlkeys⟩ := layersByKey_shape g l []
    rw [List.nil_append] at hml
    have hstable : ∀ x ∈ l, getL (layersByKey g (l ++ [c]) []) x =
        getL (layersByKey g l []) x := by
      intro x hx
      obtain ⟨v, hv⟩ := lookup_isSome_of_mem_keys (m := layersByKey g l [])
        (by rw [hml, hmlkeys]; exact hx)
      rw [hM]
      unfold getL
      rw [hv, lookup_append_left hv]
    rcases List.mem_append.mp hk with hkl | hkc
    · -- k was already assigned before `c` was processed
      have hdk : ∀ d ∈ nodeDeps g k, d ∈ l := fun d hd => hgood.closed k hkl d hd
      rw [hstable k hkl, ih hndl k hkl]
      cases hds : (nodeDeps g k).isEmpty with
      | true => rfl
      | false =>
        simp only [Bool.false_eq_true, if_false]
        have hmapeq : (nodeDeps g k).map (getL (layersByKey g (l ++ [c]) [])) =
            (nodeDeps g k).map (getL (layersByKey g l [])) :=
          List.map_congr_left (fun d hd => hstable d (hdk d hd))
        rw [hmapeq]
    · obtain rfl : k = c := List.mem_singleton.mp hkc
      have hlookc : getL (layersByKey g (l ++ [k]) []) k =
          layerOfTask g (layersByKey g l []) k := by
        rw [hM]
        unfold getL
        rw [lookup_append_right (by
          intro p hp
          rw [hml] at hp
          have hpl : p.1 ∈ l := hmlkeys ▸ List.mem_map_of_mem Prod.fst hp
          exact fun he => hcl (he ▸ hpl))]
        simp [List.lookup]
      rw [hlookc, layerOfTask_formula]
      cases hds : (nodeDeps g k).isEmpty with
      | true => rfl
      | false =>
        simp only [Bool.false_eq_true, if_false]
        have hmapeq : (nodeDeps g k).map (getL (layersByKey g (l ++ [k]) [])) =
            (nodeDeps g k).map (getL (layersByKey g l [])) :=
          List.map_congr_left (fun d hd => hstable d (hdeps d hd))
        rw [hmapeq]

end TaskGraphLemmas

section Claims

/-- C1 (amended): for JSON-representable structures that contain the
same key-value pairs and differ only in the insertion order of object
keys (recursively; array order preserved), the task-engine `hash`
produces identical digest strings.  (The utility hash in `src/utils.ts`
does not have this property; see the counterexample.) -/
theorem hash_independent_of_key_order (n : Nat) (opts : Option HashOptions)
    (vs ws : List Json)
    (hwf : ∀ v ∈ vs, wellFormedN n v = true)
    (heq : List.Forall₂ (JsonEquivN n) vs ws) :
    engineHashN n (vs.map .json) opts = engineHashN n (ws.map .json) opts := by
  unfold engineHashN
  have hupd : (vs.map Hashable.json).map (engineUpdateN n) =
      (ws.map Hashable.json).map (engineUpdateN n) := by
    induction heq with
    | nil => rfl
    | cons h t ih =>
      simp only [List.map_cons, List.cons.injEq]
      constructor
      · exact engineUpdateN_eq_of_equiv n _ _ (hwf _ (by simp)) h
      · exact ih (fun v hv => hwf v (by simp [hv]))
  rw [hupd]

/-- Witness for C1 at a concrete pair of structures differing only in
key insertion order. -/
theorem hash_independent_of_key_order_witness :
    (∀ v ∈ [Json.obj [("a", .null), ("b", .bool true)]], wellFormedN 2 v = true) ∧
    List.Forall₂ (JsonEquivN 2)
      [Json.obj [("a", .null), ("b", .bool true)]]
      [Json.obj [("b", .bool true), ("a", .null)]] ∧
    engineHashN 2 ([Json.obj [("a", .null), ("b", .bool true)]].map .json) none =
      engineHashN 2 ([Json.obj [("b", .bool true), ("a", .null)]].map .json) none := by
  have hfa : List.Forall₂ (JsonEquivN 2)
      [Json.obj [("a", .null), ("b", .bool true)]]
      [Json.obj [("b", .bool true), ("a", .null)]] := by
    refine List.Forall₂.cons ?_ List.Forall₂.nil
    exact ⟨[("a", Json.null), ("b", Json.bool true)],
      List.Forall₂.cons ⟨rfl, trivial⟩ (List.Forall₂.cons ⟨rfl, rfl⟩ List.Forall₂.nil),
      List.Perm.swap ("b", Json.bool true) ("a", Json.null) []⟩
  exact ⟨by decide, hfa,
    hash_independent_of_key_order 2 none _ _ (by decide) hfa⟩

/-- C1 counterexample: the utility `hash` of `src/utils.ts` (the one
`memoize` uses for its default key) serializes objects without sorting
keys, so two structures with the same key-value pairs in different
insertion order hash to different digests. -/
theorem utility_hash_depends_on_key_order :
    JsonEquivN 2 (Json.obj [("a", .null), ("b", .bool true)])
      (Json.obj [("b", .bool true), ("a", .null)]) ∧
    wellFormedN 2 (Json.obj [("a", .null), ("b", .bool true)]) = true ∧
    utilityHashN 2 [.json (Json.obj [("a", .null), ("b", .bool true)])] none ≠
      utilityHashN 2 [.json (Json.obj [("b", .bool true), ("a", .null)])] none := by
  refine ⟨⟨[("a", Json.null), ("b", Json.bool true)],
    List.Forall₂.cons ⟨rfl, trivial⟩ (List.Forall₂.cons ⟨rfl, rfl⟩ List.Forall₂.nil),
    List.Perm.swap ("b", Json.bool true) ("a", Json.null) []⟩, by decide, by decide⟩

/-- C2 (code bug): both `hash` implementations pass `options?.encoding`
— not `options?.algorithm` — to `createHash`: the `algorithm` option is
ignored entirely, and supplying only an `encoding` changes the digest
algorithm `createHash` is asked for (an invalid one, such as `base64`,
makes the call throw instead of hashing with SHA-256). -/
theorem hash_uses_encoding_as_algorithm :
    (∀ (n : Nat) (values : List Hashable) (alg enc : Option String),
      engineHashN n values (some ⟨alg, enc⟩) = engineHashN n values (some ⟨none, enc⟩)) ∧
    (∀ (n : Nat) (values : List Hashable) (alg enc : Option String),
      utilityHashN n values (some ⟨alg, enc⟩) = utilityHashN n values (some ⟨none, enc⟩)) ∧
    utilityHashN 1 [.json (.str "x")] (some ⟨some "sha512", none⟩) =
      utilityHashN 1 [.json (.str "x")] none ∧
    utilityHashN 1 [.json (.str "x")] (some ⟨none, some "base64"⟩) =
      .error "Digest method not supported: base64" := by
  exact ⟨fun _ _ _ _ => rfl, fun _ _ _ _ => rfl, rfl, by decide⟩

/-- C3 (code bug): `dependencies({deep: true})` returns only the direct
dependencies: the traversal loop is dead code because `seen` is seeded
with the whole work list, so transitive dependencies (here `A`, reachable
from `C` through `B`) never appear in the result. -/
theorem dependencies_deep_returns_only_direct :
    (∀ (g : Graph) (k : String), dependenciesDeep g k = nodeDeps g k) ∧
    dependenciesDeep [("C", ["B"]), ("B", ["A"]), ("A", [])] "C" = ["B"] ∧
    Reaches [("C", ["B"]), ("B", ["A"]), ("A", [])] "C" "A" ∧
    "A" ∉ dependenciesDeep [("C", ["B"]), ("B", ["A"]), ("A", [])] "C" := by
  refine ⟨dependenciesDeep_eq_direct, by decide, ?_, by decide⟩
  have e₁ : Edge [("C", ["B"]), ("B", ["A"]), ("A", [])] "C" "B" := by decide
  have e₂ : Edge [("C", ["B"]), ("B", ["A"]), ("A", [])] "B" "A" := by decide
  exact Reaches.tail (Reaches.tail (.refl "C") e₁) e₂

/-- C4 (amended): on an acyclic graph, `toposort` succeeds and returns a
duplicate-free ordering of the key-deduplicated set of all tasks
reachable from the input list (the inputs together with every transitive
dependency), in which every direct dependency of a task appears strictly
earlier than that task. -/
theorem toposort_orders_reachable_tasks (g : Graph) (inputs : List String)
    (hac : Acyclic g) :
    ∃ out, toposortRun g inputs = .ok out ∧ out.Nodup ∧
      (∀ k, k ∈ out ↔ ∃ i ∈ inputs, Reaches g i k) ∧
      (∀ k ∈ out, ∀ d ∈ nodeDeps g k, d ∈ out ∧ out.indexOf d < out.indexOf k) := by
  obtain ⟨out, heq, hnd, hgood, hmem⟩ := toposortRun_of_acyclic g inputs hac
  exact ⟨out, heq, hnd, hmem, fun k hk d hd => hgood.indexOf_lt hnd k hk d hd⟩

/-- Witness for C4 on a concrete two-task acyclic graph. -/
theorem toposort_orders_reachable_tasks_witness :
    Acyclic [("B", ["A"]), ("A", [])] ∧
    ∃ out, toposortRun [("B", ["A"]), ("A", [])] ["B", "A"] = .ok out ∧ out.Nodup ∧
      (∀ k, k ∈ out ↔ ∃ i ∈ ["B", "A"], Reaches [("B", ["A"]), ("A", [])] i k) ∧
      (∀ k ∈ out, ∀ d ∈ nodeDeps [("B", ["A"]), ("A", [])] k,
        d ∈ out ∧ out.indexOf d < out.indexOf k) := by
  have hac : Acyclic [("B", ["A"]), ("A", [])] :=
    acyclic_of_rank _ (fun k => if k = "B" then 1 else 0) (by decide)
  exact ⟨hac, toposort_orders_reachable_tasks _ ["B", "A"] hac⟩

/-- C4 counterexample: on input `[B]` over the acyclic graph `B -> A`,
the output `[A, B]` is not an ordering of the key-deduplicated input
set `[B]` — `toposort` adds every reachable dependency to its output. -/
theorem toposort_output_exceeds_input_set :
    Acyclic [("B", ["A"]), ("A", [])] ∧
    toposortRun [("B", ["A"]), ("A", [])] ["B"] = .ok ["A", "B"] ∧
    ¬ (["A", "B"].Perm (removeDuplicateTasks ["B"])) := by
  exact ⟨acyclic_of_rank _ (fun k => if k = "B" then 1 else 0) (by decide),
    by decide, by decide⟩

/-- C5 (amended): when the task's own key is **not** already present in
its storage, `result()` on a task whose reachable dependency set
contains a cycle fails with a cycle error naming both keys of a genuine
back edge, before any task's `fn` is invoked and before any storage
write (the event trace of the call is empty).  (If the key is cached,
the stored value is returned and no cycle detection happens; see the
counterexample.) -/
theorem result_cycle_error_before_work {V : Type} (γ : Config V) (st : Store V)
    (root : String) (fuel : Nat)
    (hmiss : List.lookup root st = none)
    (hcyc : ∃ a d, Reaches (graphOf γ) root a ∧ Edge (graphOf γ) a d ∧
      Reaches (graphOf γ) d a) :
    ∃ a b, resultRun γ (fuel + 1) st root = ([], .error (.cycle a b)) ∧
      Edge (graphOf γ) a b ∧ Reaches (graphOf γ) b a := by
  obtain ⟨a, d, h₁, h₂, h₃⟩ := hcyc
  obtain ⟨a', b', heq, hedge, hreach⟩ := toposortRun_cycle (graphOf γ)
    (root :: dependenciesDeep (graphOf γ) root)
    ⟨root, List.mem_cons_self _ _, a, d, h₁, h₂, h₃⟩
  refine ⟨a', b', ?_, hedge, hreach⟩
  simp [resultRun, hmiss, dependencyLayersRun, heq]

/-- Witness for C5 on the concrete cyclic configuration with an empty
storage. -/
theorem result_cycle_error_before_work_witness :
    List.lookup "A" ([] : Store Nat) = none ∧
    (∃ a d, Reaches (graphOf cycConfig) "A" a ∧ Edge (graphOf cycConfig) a d ∧
      Reaches (graphOf cycConfig) d a) ∧
    ∃ a b, resultRun cycConfig 4 [] "A" = ([], .error (.cycle a b)) ∧
      Edge (graphOf cycConfig) a b ∧ Reaches (graphOf cycConfig) b a := by
  have hcyc : ∃ a d, Reaches (graphOf cycConfig) "A" a ∧
      Edge (graphOf cycConfig) a d ∧ Reaches (graphOf cycConfig) d a :=
    ⟨"A", "B", .refl "A", by decide, Reaches.tail (.refl "B") (by decide)⟩
  exact ⟨rfl, hcyc, result_cycle_error_before_work cycConfig [] "A" 3 rfl hcyc⟩

/-- C5 counterexample: the same cyclic configuration with the root's key
already in storage: `result()` returns the cached value and never fails,
although the reachable dependency set contains a cycle. -/
theorem result_cache_hit_skips_cycle_check :
    (∃ d, Edge (graphOf cycConfig) "A" d ∧ Reaches (graphOf cycConfig) d "A") ∧
    resultRun cycConfig 4 [("A", 7)] "A" = ([], .ok (7, [("A", 7)])) := by
  exact ⟨⟨"B", by decide, Reaches.tail (.refl "B") (by decide)⟩, rfl⟩

/-- C6: for every graph accepted by `dependencyLayers`, a task with no
direct dependencies is assigned layer index 0, and every other task's
layer index is exactly one more than the maximum layer index of its
direct dependencies. -/
theorem dependency_layers_recurrence (g : Graph) (root : String)
    (sorted : List String) (m : List (String × Nat))
    (h : dependencyLayersRun g root = .ok sorted m) :
    ∀ k ∈ sorted, getL m k =
      if (nodeDeps g k).isEmpty then 0
      else ((nodeDeps g k).map (getL m)).foldl max 0 + 1 := by
  unfold dependencyLayersRun at h
  cases heq : toposortRun g (root :: dependenciesDeep g root) with
  | ok out =>
    rw [heq] at h
    cases h
    have hfin := goodFinal_of_toposortRun_ok heq
    exact fun k hk => layers_recurrence hfin.2.1 hfin.1 k hk
  | cycle a b => rw [heq] at h; cases h
  | fuelOut => rw [heq] at h; cases h

/-- Witness for C6 on the concrete graph `B -> A`. -/
theorem dependency_layers_recurrence_witness :
    dependencyLayersRun [("B", ["A"]), ("A", [])] "B" =
      .ok ["A", "B"] [("A", 0), ("B", 1)] ∧
    ∀ k ∈ ["A", "B"], getL [("A", 0), ("B", 1)] k =
      if (nodeDeps [("B", ["A"]), ("A", [])] k).isEmpty then 0
      else ((nodeDeps [("B", ["A"]), ("A", [])] k).map
        (getL [("A", 0), ("B", 1)])).foldl max 0 + 1 := by
  exact ⟨by decide, dependency_layers_recurrence _ "B" _ _ (by decide)⟩

/-- C7: when a task's key is already present in its attached storage,
`persist()` returns with no `fn` invocation and no storage write (empty
event trace, storage unchanged), and `result()` returns the stored value
without recomputing, leaving the stored entry unchanged. -/
theorem persist_and_result_on_cache_hit {V : Type} (γ : Config V) (st : Store V)
    (k : String) (v : V) (fuel : Nat) (h : List.lookup k st = some v) :
    persistRun γ (fuel + 1) st k = ([], .ok st) ∧
    resultRun γ (fuel + 1) st k = ([], .ok (v, st)) := by
  constructor
  · simp [persistRun, h]
  · simp [resultRun, h]

/-- Witness for C7 on a concrete configuration and storage. -/
theorem persist_and_result_on_cache_hit_witness :
    List.lookup "A" [("A", 7)] = some 7 ∧
    persistRun cycConfig 4 [("A", 7)] "A" = ([], .ok [("A", 7)]) ∧
    resultRun cycConfig 4 [("A", 7)] "A" = ([], .ok (7, [("A", 7)])) := by
  have h := persist_and_result_on_cache_hit cycConfig [("A", 7)] "A" 7 3 rfl
  exact ⟨rfl, h.1, h.2⟩

/-- C8: `ensure(key, compute)` runs `compute` and writes its result via
`set` exactly when reading the attributes fails (key absent) or some
configured constraint rejects them; when the attributes exist and
satisfy every constraint, `compute` is not invoked and storage is left
untouched. -/
theorem ensure_computes_exactly_on_invalid {A W : Type} (cfg : OsConfig A W)
    (st : OsStore A W) (k : String) (v : W) (na : A) :
    ((ensureRun cfg st k v na).computeRan = false ↔
      (∃ a, osGetAttributes st k = some a ∧ osValidate cfg a = [])) ∧
    (ensureRun cfg st k v na).state =
      (if (ensureRun cfg st k v na).computeRan then osSet cfg st k v na else st) := by
  cases hattr : osGetAttributes st k with
  | none =>
    have hrun : ensureRun cfg st k v na = ⟨true, osSet cfg st k v na⟩ := by
      unfold ensureRun
      rw [hattr]
    rw [hrun]
    simp [hattr]
  | some a =>
    have hrun : ensureRun cfg st k v na =
        if (osValidate cfg a).isEmpty then ⟨false, st⟩
        else ⟨true, osSet cfg st k v na⟩ := by
      unfold ensureRun
      rw [hattr]
    rw [hrun]
    cases hval : (osValidate cfg a).isEmpty with
    | true =>
      rw [if_pos rfl]
      exact ⟨⟨fun _ => ⟨a, rfl, List.isEmpty_iff.mp hval⟩, fun _ => rfl⟩, by simp⟩
    | false =>
      rw [if_neg (by simp)]
      constructor
      · constructor
        · intro h
          simp at h
        · rintro ⟨a', ha', hv'⟩
          obtain rfl := Option.some.inj ha'
          rw [hv'] at hval
          simp at hval
      · simp

/-- C9: when a memoized call reaches the cache-miss path (the `get`
threw) and the subsequent `set` throws as well, the call still returns
the freshly computed result: the write error is swallowed, not
propagated. -/
theorem memoize_swallows_cache_write_error {V E : Type} (env : MemoEnv V E)
    (fnR : List Json → V) (args : List Json) (e e' : E)
    (hcond : env.condition = none ∨ ∃ c, env.condition = some c ∧ c args = true)
    (hget : env.getR (memoKey env args) = .error e)
    (hset : env.setR (memoKey env args) (fnR args) = .error e') :
    memoRun env fnR args = ⟨fnR args, true, true, true⟩ := by
  unfold memoRun memoLookup
  rcases hcond with h | ⟨c, hc, hca⟩
  · rw [h]
    simp [hget, hset]
  · rw [hc]
    simp [hca, hget, hset]

/-- Witness for C9 with a concrete always-failing get/set pair. -/
theorem memoize_swallows_cache_write_error_witness :
    (⟨none, some (fun _ => "k"), fun _ => .error "read",
        fun _ _ => .error "write", 0⟩ : MemoEnv Nat String).getR "k" = .error "read" ∧
    memoRun (⟨none, some (fun _ => "k"), fun _ => .error "read",
        fun _ _ => .error "write", 0⟩ : MemoEnv Nat String) (fun _ => 42) [] =
      ⟨42, true, true, true⟩ := by
  exact ⟨rfl, memoize_swallows_cache_write_error _ (fun _ => 42) [] "read" "write"
    (Or.inl rfl) rfl rfl⟩

/-- C10: with transforms configured, `get` returns the decoded value
only when `decode` yields a non-nullish result; when `decode(buffer)`
evaluates to a nullish value, `get` silently returns the raw stored
buffer; symmetrically, `set` writes the data unencoded when `encode`
yields a nullish result. -/
theorem get_returns_raw_on_nullish_decode {A W : Type} (cfg : OsConfig A W)
    (st : OsStore A W) (k : String) (buf : W) (attrs : A) (t : OsTransforms W)
    (v : W) (na : A)
    (hentry : List.lookup k st = some (buf, attrs))
    (hvalid : osValidate cfg attrs = [])
    (htrans : cfg.transforms = some t) :
    (t.decode buf = none → osGet cfg st k = .ok buf) ∧
    (∀ d, t.decode buf = some d → osGet cfg st k = .ok d) ∧
    (t.encode v = none → osSet cfg st k v na = (k, v, na) :: st) := by
  refine ⟨?_, ?_, ?_⟩
  · intro hdec
    unfold osGet
    rw [hentry]
    simp [hvalid, htrans, hdec]
  · intro d hdec
    unfold osGet
    rw [hentry]
    simp [hvalid, htrans, hdec]
  · intro henc
    unfold osSet osEncode
    rw [htrans]
    simp [henc]

/-- Witness for C10 with concrete transforms whose decode and encode are
nullish on every input. -/
theorem get_returns_raw_on_nullish_decode_witness :
    List.lookup "k" ([("k", 5, 0)] : OsStore Nat Nat) = some (5, 0) ∧
    osGet (⟨none, some ⟨fun _ => none, fun _ => none⟩⟩ : OsConfig Nat Nat)
      [("k", 5, 0)] "k" = .ok 5 ∧
    osSet (⟨none, some ⟨fun _ => none, fun _ => none⟩⟩ : OsConfig Nat Nat)
      [("k", 5, 0)] "k" 9 1 = ("k", 9, 1) :: [("k", 5, 0)] := by
  have h := get_returns_raw_on_nullish_decode
    (⟨none, some ⟨fun _ => none, fun _ => none⟩⟩ : OsConfig Nat Nat)
    [("k", 5, 0)] "k" 5 0 ⟨fun _ => none, fun _ => none⟩ 9 1 rfl rfl rfl
  exact ⟨rfl, h.1 rfl, h.2.2 rfl⟩

end Claims

end McpCore
